import Mathlib

/-!
# Tunnel registry and forwarding pump of `internal/ssh/tunnel.go`

A shallow embedding of the `TunnelManager` (`CreateTunnel`, `CloseTunnel`,
`ListTunnels`, `CloseAll`), of the acceptor loop (`handleConnections`) and
of the byte pump (`copyData`, `handleConnection`).

* The Go heap is explicit: `*Tunnel` values are addresses (`Ptr`) into
  `State.heap`, and `tm.tunnels` is an association list from local port to
  address.
* External resources (ssh clients, listeners, `done` channels) are handles.
  Every effect the code performs on them is appended, in program order, to
  `State.trace`; whether a resource is open is read off the trace.
* The outcome of each external call (`ioutil.ReadFile`,
  `ssh.ParsePrivateKey`, `ssh.Dial`, `net.Listen`) is supplied by an `Env`
  that accompanies the call, so every statement quantifies over arbitrary
  outcomes.
* Every registry method holds `tm.mu` from entry to exit, so each method is
  one atomic step on `State`.
* Go leaves the iteration order of `range` over a map unspecified:
  `ListTunnels` and `CloseAll` take the order of visit as an argument, and
  statements about them hold for every permutation of the entries.
* A connection is described by the outcomes of the successive calls made on
  it; a pump whose script runs out before an error is still blocked and has
  no result.
-/

namespace T9s

/-! ## Go maps as association lists -/

/-- Lookup `m[k]` with the comma-ok result as an `Option`. -/
def mget {κ ν : Type} [DecidableEq κ] (k : κ) : List (κ × ν) → Option ν
  | [] => none
  | (k', v) :: m => if k' = k then some v else mget k m

/-- Builtin `delete(m, k)`. -/
def mdelete {κ ν : Type} [DecidableEq κ] (k : κ) (m : List (κ × ν)) : List (κ × ν) :=
  m.filter (fun e => decide (e.1 ≠ k))

/-- Assignment `m[k] = v`. -/
def mset {κ ν : Type} [DecidableEq κ] (k : κ) (v : ν) (m : List (κ × ν)) : List (κ × ν) :=
  (k, v) :: mdelete k m

/-- The keys of a map. -/
def mkeys {κ ν : Type} (m : List (κ × ν)) : List κ := m.map Prod.fst

/-! ## Data model -/

/-- Go `config.BastionConfig`. -/
structure BastionConfig where
  Host : String
  User : String
  Port : Int
  AuthType : String
  KeyPath : String
  Password : String
deriving DecidableEq, Repr

/-- Identity of an external resource: an ssh client, a listener or a channel. -/
abbrev Handle := Nat

/-- Address of a heap-allocated `Tunnel`. -/
abbrev Ptr := Nat

/-- Go `Tunnel`. `Bastion` is a pointer, `none` being the nil pointer. -/
structure Tunnel where
  LocalPort : Int
  RemotePort : Int
  Bastion : Option BastionConfig
  listener : Handle
  client : Handle
  done : Handle
deriving DecidableEq, Repr

/-- Result of `ssh.ParsePrivateKey`, kept abstract. -/
abbrev Signer := Nat

/-- An `ssh.AuthMethod`. -/
inductive AuthMethod where
  | PublicKeys (signer : Signer)
  | Password (secret : String)
deriving DecidableEq, Repr

/-- The fields of `ssh.ClientConfig` that `CreateTunnel` sets; `Timeout` in
seconds, `HostKeyCallback` is always `InsecureIgnoreHostKey`. -/
structure ClientConfig where
  User : String
  Auth : List AuthMethod
  Timeout : Nat
deriving DecidableEq, Repr

/-- A network address `host:port` (the argument built with `fmt.Sprintf`). -/
abbrev Addr := String × Int

/-- Effects performed by the registry, in program order. -/
inductive Event where
  | readFile (path : String) (ok : Bool)
  | dial (addr : Addr) (res : Option Handle)
  | listen (addr : Addr) (res : Option Handle)
  | makeChan (h : Handle)
  | closeChan (h : Handle)
  | closeListener (h : Handle)
  | closeClient (h : Handle)
  | insert (port : Int) (p : Ptr)
  | delete (port : Int)
  | spawnAcceptor (p : Ptr)
deriving DecidableEq, Repr

/-- The registry together with the heap and the history of effects. -/
structure State where
  tunnels : List (Int × Ptr)
  heap : List (Ptr × Tunnel)
  next : Nat
  trace : List Event
deriving DecidableEq, Repr

/-- Outcomes of the external calls made during one `CreateTunnel`. -/
structure Env where
  readFile : String → Option (List (Fin 256))
  parsePrivateKey : List (Fin 256) → Option Signer
  dial : Addr → ClientConfig → Bool
  listen : Addr → Bool

/-- The errors built with `fmt.Errorf` in this file, one per message. -/
inductive Err where
  | tunnelAlreadyExists (localPort : Int)
  | failedToReadPrivateKey
  | failedToParsePrivateKey
  | failedToConnectToBastion
  | failedToStartLocalListener
  | noTunnelExists (localPort : Int)
deriving DecidableEq, Repr

/-- How a call ends: it returns `nil`, returns an error, or panics. -/
inductive Result where
  | nil
  | err (e : Err)
  | panic
deriving DecidableEq, Repr

/-- Append one effect to the history. -/
def emit (e : Event) (s : State) : State := { s with trace := s.trace ++ [e] }

/-! ## The registry -/

/-- Go `NewTunnelManager`: an empty mapping. -/
def NewTunnelManager : State := { tunnels := [], heap := [], next := 0, trace := [] }

/-- The authentication set-up of `CreateTunnel` (lines 53-67): the `Auth`
list, or the error returned, together with the state after the file read. -/
def setupAuth (env : Env) (b : BastionConfig) (s : State) : Except Err (List AuthMethod) × State :=
  if b.AuthType = "key" then
    match env.readFile b.KeyPath with
    | none => (.error .failedToReadPrivateKey, emit (.readFile b.KeyPath false) s)
    | some key =>
      let s1 := emit (.readFile b.KeyPath true) s
      match env.parsePrivateKey key with
      | none => (.error .failedToParsePrivateKey, s1)
      | some signer => (.ok [.PublicKeys signer], s1)
  else
    (.ok [.Password b.Password], s)

/-- Go `TunnelManager.CreateTunnel`. -/
def CreateTunnel (env : Env) (localPort remotePort : Int) (bastion : Option BastionConfig)
    (s : State) : Result × State :=
  if (mget localPort s.tunnels).isSome then
    (.err (.tunnelAlreadyExists localPort), s)
  else
    match bastion with
    | none => (.panic, s)
    | some b =>
      match setupAuth env b s with
      | (.error e, s1) => (.err e, s1)
      | (.ok auth, s1) =>
        let config : ClientConfig := { User := b.User, Auth := auth, Timeout := 10 }
        if env.dial (b.Host, b.Port) config then
          let client : Handle := s1.next
          let s2 := emit (.dial (b.Host, b.Port) (some client)) { s1 with next := s1.next + 1 }
          if env.listen ("localhost", localPort) then
            let listener : Handle := s2.next
            let s3 := emit (.listen ("localhost", localPort) (some listener))
              { s2 with next := s2.next + 1 }
            let done : Handle := s3.next
            let s4 := emit (.makeChan done) { s3 with next := s3.next + 1 }
            let tunnel : Tunnel :=
              { LocalPort := localPort, RemotePort := remotePort, Bastion := bastion,
                listener := listener, client := client, done := done }
            let p : Ptr := s4.next
            let s5 : State := { s4 with next := s4.next + 1, heap := (p, tunnel) :: s4.heap }
            let s6 := emit (.insert localPort p) { s5 with tunnels := mset localPort p s5.tunnels }
            (.nil, emit (.spawnAcceptor p) s6)
          else
            let s3 := emit (.listen ("localhost", localPort) none) s2
            (.err .failedToStartLocalListener, emit (.closeClient client) s3)
        else
          (.err .failedToConnectToBastion, emit (.dial (b.Host, b.Port) none) s1)

/-- The statements `close(tunnel.done); tunnel.listener.Close();
tunnel.client.Close(); delete(tm.tunnels, port)` shared by `CloseTunnel` and
`CloseAll`. Closing a channel that is already closed panics. -/
def closeAndDelete (port : Int) (tunnel : Tunnel) (s : State) : Option State :=
  if Event.closeChan tunnel.done ∈ s.trace then
    none
  else
    let s1 := emit (.closeChan tunnel.done) s
    let s2 := emit (.closeListener tunnel.listener) s1
    let s3 := emit (.closeClient tunnel.client) s2
    some (emit (.delete port) { s3 with tunnels := mdelete port s3.tunnels })

/-- Go `TunnelManager.CloseTunnel`. A pointer that is not in the heap stands
for a nil pointer, whose dereference panics. -/
def CloseTunnel (localPort : Int) (s : State) : Result × State :=
  match mget localPort s.tunnels with
  | none => (.err (.noTunnelExists localPort), s)
  | some p =>
    match mget p s.heap with
    | none => (.panic, s)
    | some tunnel =>
      match closeAndDelete localPort tunnel s with
      | none => (.panic, s)
      | some s1 => (.nil, s1)

/-- Go `TunnelManager.ListTunnels`: a new slice to which the pointer of each
entry is appended. `order` lists the entries of the mapping in the order in
which `range` visits them, which Go leaves unspecified. -/
def ListTunnels (order : List (Int × Ptr)) (s : State) : List Ptr × State :=
  (order.foldl (fun tunnels e => tunnels ++ [e.2]) [], s)

/-- The `range` loop of `CloseAll` over the entries still to visit. The body
deletes the entry it is visiting, so the entries not yet visited are exactly
those left in the mapping. -/
def closeAllLoop : List (Int × Ptr) → State → Result × State
  | [], s => (.nil, s)
  | (port, p) :: rest, s =>
    match mget p s.heap with
    | none => (.panic, s)
    | some tunnel =>
      match closeAndDelete port tunnel s with
      | none => (.panic, s)
      | some s1 => closeAllLoop rest s1

/-- Go `TunnelManager.CloseAll`. `order` lists the entries of the mapping in
the order in which `range` visits them, which Go leaves unspecified. -/
def CloseAll (order : List (Int × Ptr)) (s : State) : Result × State := closeAllLoop order s

/-! ## The forwarding pump -/

/-- Identity of a `net.Conn`. -/
abbrev Conn := Nat

/-- One byte. -/
abbrev Byte := Fin 256

/-- What one `src.Read(buffer)` call delivers: the bytes stored at the front
of the buffer (`n` is their number) and whether `err` is non-nil. -/
structure ReadResult where
  data : List Byte
  err : Bool
deriving DecidableEq, Repr

/-- Operations performed on connections, in program order. -/
inductive ConnEvent where
  | read (c : Conn) (data : List Byte) (err : Bool)
  | write (c : Conn) (data : List Byte) (err : Bool)
  | close (c : Conn)
  | dialRemote (client : Handle) (addr : Addr) (res : Option Conn)
  | print
deriving DecidableEq, Repr

/-- How a pump call ends. -/
inductive Exit where
  | returned
  | panicked
deriving DecidableEq, Repr

/-- A `[]byte`: its length and the byte at each index below it. -/
structure Slice where
  len : Nat
  get : Nat → Byte

/-- Go `make([]byte, n)`: `n` zero bytes. -/
def makeBytes (n : Nat) : Slice := { len := n, get := fun _ => 0 }

/-- The buffer after a `Read` that stored `data` at its front. -/
def Slice.store (buffer : Slice) (data : List Byte) : Slice :=
  { len := buffer.len, get := fun i => data.getD i (buffer.get i) }

/-- The bytes of `buffer[:n]`. -/
def Slice.upTo (buffer : Slice) (n : Nat) : List Byte := (List.range n).map buffer.get

/-- The `for` loop of `copyData`. `reads` and `writes` are the outcomes of
the successive `src.Read` and `dst.Write` calls (`true` in `writes` is a
non-nil error). The loop consumes them in order; when either runs out the
call is still blocked in that operation and the result is `none`. A read
that reports more bytes than the buffer holds makes `buffer[:n]` panic. -/
def copyLoop (dst src : Conn) :
    Slice → List ReadResult → List Bool → List ConnEvent → Option (Exit × List ConnEvent)
  | _, [], _, _ => none
  | buffer, r :: reads, writes, tr =>
    let n := r.data.length
    let buffer1 := buffer.store r.data
    let tr1 := tr ++ [.read src r.data r.err]
    if r.err then some (.returned, tr1)
    else if buffer1.len < n then some (.panicked, tr1)
    else
      match writes with
      | [] => none
      | w :: writes1 =>
        let tr2 := tr1 ++ [.write dst (buffer1.upTo n) w]
        if w then some (.returned, tr2)
        else copyLoop dst src buffer1 reads writes1 tr2

/-- Go `copyData`: the loop, then the deferred `src.Close()` and
`dst.Close()` in that order. -/
def copyData (dst src : Conn) (reads : List ReadResult) (writes : List Bool) :
    Option (Exit × List ConnEvent) :=
  match copyLoop dst src (makeBytes (32 * 1024)) reads writes [] with
  | none => none
  | some (ex, tr) => some (ex, tr ++ [.close src, .close dst])

/-- The bytes handed to successful or failed `Write` calls on `c`, call by
call. -/
def chunksWritten (c : Conn) : List ConnEvent → List (List Byte)
  | [] => []
  | .write c' data _ :: tr => if c' = c then data :: chunksWritten c tr else chunksWritten c tr
  | _ :: tr => chunksWritten c tr

/-- A goroutine started by `handleConnection`: it runs `copyData dst src`
with `localConn.Close()` and `remote.Close()` deferred. -/
structure CopyTask where
  localConn : Conn
  remote : Conn
  dst : Conn
  src : Conn
deriving DecidableEq, Repr

/-- Body of a copy goroutine: `copyData`, then the deferred
`remote.Close()` and `local.Close()` in that order. -/
def runCopyTask (t : CopyTask) (reads : List ReadResult) (writes : List Bool) :
    Option (Exit × List ConnEvent) :=
  match copyData t.dst t.src reads writes with
  | none => none
  | some (ex, tr) => some (ex, tr ++ [.close t.remote, .close t.localConn])

/-- Go `Tunnel.handleConnection`: `dialResult` is the outcome of
`t.client.Dial`. Returns the operations it performs itself and the
goroutines it starts. -/
def handleConnection (t : Tunnel) (localConn : Conn) (dialResult : Option Conn) :
    List ConnEvent × List CopyTask :=
  match dialResult with
  | none =>
    ([.dialRemote t.client ("localhost", t.RemotePort) none, .print, .close localConn], [])
  | some remote =>
    ([.dialRemote t.client ("localhost", t.RemotePort) (some remote)],
     [{ localConn := localConn, remote := remote, dst := localConn, src := remote },
      { localConn := localConn, remote := remote, dst := remote, src := localConn }])

/-! ## Derived states and sample inputs -/

/-- The tunnel `CreateTunnel` registers when the allocation counter is `n`. -/
def newTunnel (localPort remotePort : Int) (b : BastionConfig) (n : Nat) : Tunnel :=
  { LocalPort := localPort, RemotePort := remotePort, Bastion := some b,
    listener := n + 1, client := n, done := n + 2 }

/-- The state `CreateTunnel` leaves on success, `evs` being the effects of
the authentication set-up. -/
def created (localPort remotePort : Int) (b : BastionConfig) (evs : List Event) (s : State) :
    State :=
  { tunnels := mset localPort (s.next + 3) s.tunnels
    heap := (s.next + 3, newTunnel localPort remotePort b s.next) :: s.heap
    next := s.next + 4
    trace := s.trace ++ (evs ++ [.dial (b.Host, b.Port) (some s.next),
      .listen ("localhost", localPort) (some (s.next + 1)), .makeChan (s.next + 2),
      .insert localPort (s.next + 3), .spawnAcceptor (s.next + 3)]) }

/-- Whether every external call made by `CreateTunnel` for bastion `b`
succeeds under `env`. -/
def Env.allSucceed (env : Env) (localPort : Int) (b : BastionConfig) : Prop :=
  (∀ auth, env.dial (b.Host, b.Port) { User := b.User, Auth := auth, Timeout := 10 } = true) ∧
  env.listen ("localhost", localPort) = true ∧
  (b.AuthType = "key" → ∃ key signer, env.readFile b.KeyPath = some key ∧
    env.parsePrivateKey key = some signer)

/-- An environment in which the dial succeeds and the listen fails. -/
def envListenFails : Env :=
  { readFile := fun _ => none, parsePrivateKey := fun _ => none,
    dial := fun _ _ => true, listen := fun _ => false }

/-- An environment in which every external call succeeds. -/
def envOk : Env :=
  { readFile := fun _ => some [], parsePrivateKey := fun _ => some 0,
    dial := fun _ _ => true, listen := fun _ => true }

/-- A bastion with password authentication. -/
def bastionPw : BastionConfig :=
  { Host := "bastion", User := "admin", Port := 22, AuthType := "password",
    KeyPath := "", Password := "secret" }

/-- The registry after one successful `CreateTunnel` on port 8080. -/
def oneTunnel : State := (CreateTunnel envOk 8080 80 (some bastionPw) NewTunnelManager).2

/-- The operations of the loop when every read in `oks` and every write
succeeds. -/
def pumped (dst src : Conn) : List ReadResult → List ConnEvent
  | [] => []
  | r :: oks => .read src r.data false :: .write dst r.data false :: pumped dst src oks

/-! ## Resources held, read off the history -/

/-- The resource handles an effect names. -/
def Event.handles : Event → List Handle
  | .dial _ (some h) => [h]
  | .listen _ (some h) => [h]
  | .makeChan h => [h]
  | .closeChan h => [h]
  | .closeListener h => [h]
  | .closeClient h => [h]
  | _ => []

/-- The clients returned by successful dials. -/
def dialed : List Event → List Handle
  | [] => []
  | .dial _ (some h) :: tr => h :: dialed tr
  | _ :: tr => dialed tr

/-- Listener `h` was bound by the registry on `localhost:port` and has not
been closed. -/
def listenerOpen (s : State) (h : Handle) (port : Int) : Prop :=
  Event.listen ("localhost", port) (some h) ∈ s.trace ∧ Event.closeListener h ∉ s.trace

/-- Client `h` was opened by the registry and has not been closed. -/
def clientOpen (s : State) (h : Handle) : Prop :=
  h ∈ dialed s.trace ∧ Event.closeClient h ∉ s.trace

/-- Channel `h` was made by the registry and has not been closed. -/
def chanOpen (s : State) (h : Handle) : Prop :=
  Event.makeChan h ∈ s.trace ∧ Event.closeChan h ∉ s.trace

/-- What holds of the registry between calls: keys are unique; every entry
points to a tunnel carrying its key, whose listener, client and channel are
open; entries share no resource; every open listener and client belongs to
an entry; handles and addresses in use lie below the allocation counter. -/
structure WellFormed (s : State) : Prop where
  keys_nodup : (mkeys s.tunnels).Nodup
  registered : ∀ port p, (port, p) ∈ s.tunnels → ∃ t, mget p s.heap = some t ∧
    t.LocalPort = port ∧ listenerOpen s t.listener port ∧ clientOpen s t.client ∧
    chanOpen s t.done
  unshared : ∀ port p t port' p' t', (port, p) ∈ s.tunnels → mget p s.heap = some t →
    (port', p') ∈ s.tunnels → mget p' s.heap = some t' →
    (t.listener = t'.listener ∨ t.client = t'.client ∨ t.done = t'.done) → port = port'
  owned_listener : ∀ h port, listenerOpen s h port →
    ∃ p t, (port, p) ∈ s.tunnels ∧ mget p s.heap = some t ∧ t.listener = h
  owned_client : ∀ h, clientOpen s h →
    ∃ port p t, (port, p) ∈ s.tunnels ∧ mget p s.heap = some t ∧ t.client = h
  fresh_trace : ∀ ev ∈ s.trace, ∀ h ∈ ev.handles, h < s.next
  fresh_heap : ∀ p t, mget p s.heap = some t → p < s.next

/-- One call on the registry: `Step s s'` when some call, with some outcomes
of its external calls and some iteration order over the mapping, takes the
state `s` to `s'`. -/
inductive Step : State → State → Prop where
  | create (env : Env) (localPort remotePort : Int) (bastion : Option BastionConfig)
      (s : State) : Step s (CreateTunnel env localPort remotePort bastion s).2
  | close (localPort : Int) (s : State) : Step s (CloseTunnel localPort s).2
  | list (order : List (Int × Ptr)) (s : State) (h : order.Perm s.tunnels) :
      Step s (ListTunnels order s).2
  | closeAll (order : List (Int × Ptr)) (s : State) (h : order.Perm s.tunnels) :
      Step s (CloseAll order s).2

/-- The states reached from a new registry by a sequence of calls. -/
inductive Reachable : State → Prop where
  | new : Reachable NewTunnelManager
  | step {s s' : State} (h : Reachable s) (hstep : Step s s') : Reachable s'

/-- The effects of `CloseAll` on the entries `m`, in iteration order. -/
def closeAllEvents (heap : List (Ptr × Tunnel)) : List (Int × Ptr) → List Event
  | [] => []
  | (port, p) :: m =>
    match mget p heap with
    | none => []
    | some t =>
      [.closeChan t.done, .closeListener t.listener, .closeClient t.client, .delete port]
        ++ closeAllEvents heap m

/-- The state `closeAndDelete` leaves when the channel was still open. -/
def closed (port : Int) (t : Tunnel) (s : State) : State :=
  { s with
    tunnels := mdelete port s.tunnels
    trace := s.trace ++ [.closeChan t.done, .closeListener t.listener, .closeClient t.client,
      .delete port] }

/-- The state `CloseAll` leaves after visiting the entries `m`. -/
def closedAll (m : List (Int × Ptr)) (s : State) : State :=
  { s with tunnels := [], trace := s.trace ++ closeAllEvents s.heap m }

/-- The registry after successful `CreateTunnel` calls on ports 8080 and
8081. -/
def twoTunnels : State := (CreateTunnel envOk 8081 81 (some bastionPw) oneTunnel).2

/-! ## The acceptor loop -/

/-- Whether `t.done` is closed in the registry state `s`, that is whether
the case `<-t.done` of a `select` is ready. Nothing is ever sent on `done`,
so the case is ready exactly when the channel has been closed. -/
def doneClosed (t : Tunnel) (s : State) : Bool := decide (Event.closeChan t.done ∈ s.trace)

/-- Operations performed by the acceptor loop, in program order. -/
inductive AcceptorEvent where
  | selectDone (closed : Bool)
  | accept (listener : Handle) (res : Option Conn)
  | print
  | spawnHandler (conn : Conn)
deriving DecidableEq, Repr

/-- What one goroutine `go t.handleConnection(conn)` does: its own
operations, and each copy goroutine it starts with the way that one ends. -/
structure Handler where
  conn : Conn
  events : List ConnEvent
  tasks : List (CopyTask × Option (Exit × List ConnEvent))

/-- The acceptor at the end of an observation: whether `handleConnections`
has returned, what it did, and the handlers it started. -/
structure Acceptor where
  returned : Bool
  trace : List AcceptorEvent
  handlers : List Handler

/-- The goroutine started for the accepted connection `conn`: `dial` is the
outcome of its `t.client.Dial`, `pump` the outcomes of the reads and writes
of each copy goroutine. -/
def startHandler (t : Tunnel) (dial : Conn → Option Conn)
    (pump : CopyTask → List ReadResult × List Bool) (conn : Conn) : Handler :=
  { conn := conn
    events := (handleConnection t conn (dial conn)).1
    tasks := (handleConnection t conn (dial conn)).2.map
      (fun task => (task, runCopyTask task (pump task).1 (pump task).2)) }

/-- The `for` loop of `handleConnections`. `accepts` are the outcomes of the
successive `t.listener.Accept()` calls (`none` is an error) and `polls` the
registry states at the moments of the successive `select` statements. When
either runs out the observation ends with the loop still running. -/
def handleConnectionsLoop (t : Tunnel) (dial : Conn → Option Conn)
    (pump : CopyTask → List ReadResult × List Bool) :
    List (Option Conn) → List State → Acceptor → Acceptor
  | _, [], a => a
  | accepts, s :: polls, a =>
    if doneClosed t s then
      { a with returned := true, trace := a.trace ++ [.selectDone true] }
    else
      match accepts with
      | [] => { a with trace := a.trace ++ [.selectDone false] }
      | none :: accepts1 =>
        match polls with
        | [] => { a with trace := a.trace ++ [.selectDone false, .accept t.listener none] }
        | s2 :: polls2 =>
          if doneClosed t s2 then
            { a with
              returned := true
              trace := a.trace ++ [.selectDone false, .accept t.listener none,
                .selectDone true] }
          else
            handleConnectionsLoop t dial pump accepts1 polls2
              { a with
                trace := a.trace ++ [.selectDone false, .accept t.listener none,
                  .selectDone false, .print] }
      | some conn :: accepts1 =>
        handleConnectionsLoop t dial pump accepts1 polls
          { a with
            trace := a.trace ++ [.selectDone false, .accept t.listener (some conn),
              .spawnHandler conn]
            handlers := a.handlers ++ [startHandler t dial pump conn] }

/-- Go `Tunnel.handleConnections`. -/
def handleConnections (t : Tunnel) (dial : Conn → Option Conn)
    (pump : CopyTask → List ReadResult × List Bool) (accepts : List (Option Conn))
    (polls : List State) : Acceptor :=
  handleConnectionsLoop t dial pump accepts polls { returned := false, trace := [], handlers := [] }

/-- The operations of one iteration that finds `done` open throughout. -/
def iteration (t : Tunnel) : Option Conn → List AcceptorEvent
  | none => [.selectDone false, .accept t.listener none, .selectDone false, .print]
  | some conn => [.selectDone false, .accept t.listener (some conn), .spawnHandler conn]

/-- The number of `select` statements executed by one such iteration. -/
def selects : Option Conn → Nat
  | none => 2
  | some _ => 1

/-- The tunnel registered on port 8080 in `oneTunnel`. -/
def tunnel8080 : Tunnel := newTunnel 8080 80 bastionPw 0

/-- The registry after `CloseTunnel(8080)` on `oneTunnel`. -/
def afterClose : State := (CloseTunnel 8080 oneTunnel).2

/-! # Theorems -/

/-! ## Maps -/

theorem mget_isSome_iff {κ ν : Type} [DecidableEq κ] (k : κ) (m : List (κ × ν)) :
    (mget k m).isSome ↔ k ∈ mkeys m := by
  induction m with
  | nil => simp [mget, mkeys]
  | cons e m ih =>
    obtain ⟨k', v⟩ := e
    by_cases hk : k' = k
    · simp [mget, mkeys, hk]
    · have hk' : ¬ k = k' := fun h => hk h.symm
      simpa [mget, mkeys, hk, hk'] using ih

theorem mget_eq_none_iff {κ ν : Type} [DecidableEq κ] (k : κ) (m : List (κ × ν)) :
    mget k m = none ↔ k ∉ mkeys m := by
  rw [← mget_isSome_iff]
  cases mget k m <;> simp

/-! ## Effects of the authentication set-up -/

theorem setupAuth_state (env : Env) (b : BastionConfig) (s : State) :
    ∃ evs, (setupAuth env b s).2 = { s with trace := s.trace ++ evs } ∧
      ∀ ev ∈ evs, ∃ path ok, ev = Event.readFile path ok := by
  unfold setupAuth
  split
  · split
    · exact ⟨[.readFile b.KeyPath false], rfl, by simp⟩
    · split
      · exact ⟨[.readFile b.KeyPath true], rfl, by simp⟩
      · exact ⟨[.readFile b.KeyPath true], rfl, by simp⟩
  · exact ⟨[], by simp, by simp⟩

/-! ## Rejections that touch nothing -/

/-- C1: when `localPort` is already a key of the mapping, `CreateTunnel`
returns the "tunnel already exists" error and the whole state, history of
effects included, is the one it started from: no key file is read, no dial
and no listen is attempted, and the mapping is unchanged. -/
theorem createTunnel_existing_port (env : Env) (localPort remotePort : Int)
    (bastion : Option BastionConfig) (s : State) (h : localPort ∈ mkeys s.tunnels) :
    CreateTunnel env localPort remotePort bastion s
      = (.err (.tunnelAlreadyExists localPort), s) ∧
    (CreateTunnel env localPort remotePort bastion s).2.trace = s.trace ∧
    (CreateTunnel env localPort remotePort bastion s).2.tunnels = s.tunnels := by
  have h' := (mget_isSome_iff localPort s.tunnels).2 h
  simp [CreateTunnel, h']

theorem closeTunnel_of_absent (localPort : Int) (s : State)
    (h : localPort ∉ mkeys s.tunnels) :
    CloseTunnel localPort s = (.err (.noTunnelExists localPort), s) := by
  have h' := (mget_eq_none_iff localPort s.tunnels).2 h
  simp [CloseTunnel, h']

/-- C5: when `localPort` is not a key of the mapping, `CloseTunnel` returns
the "no tunnel exists" error and the whole state, history of effects
included, is the one it started from: nothing is closed and the mapping is
unchanged. -/
theorem closeTunnel_absent_port (localPort : Int) (s : State)
    (h : localPort ∉ mkeys s.tunnels) :
    CloseTunnel localPort s = (.err (.noTunnelExists localPort), s) ∧
    (CloseTunnel localPort s).2.trace = s.trace ∧
    (CloseTunnel localPort s).2.tunnels = s.tunnels := by
  rw [closeTunnel_of_absent localPort s h]
  exact ⟨rfl, rfl, rfl⟩

/-- Every way `CreateTunnel` can end, with the state it leaves. -/
theorem createTunnel_cases (env : Env) (localPort remotePort : Int)
    (bastion : Option BastionConfig) (s : State) :
    (localPort ∈ mkeys s.tunnels ∧
      CreateTunnel env localPort remotePort bastion s
        = (.err (.tunnelAlreadyExists localPort), s)) ∨
    (localPort ∉ mkeys s.tunnels ∧ bastion = none ∧
      CreateTunnel env localPort remotePort bastion s = (.panic, s)) ∨
    (localPort ∉ mkeys s.tunnels ∧ ∃ b evs, bastion = some b ∧
      (∀ ev ∈ evs, ∃ path ok, ev = Event.readFile path ok) ∧
      ((∃ e, (e = .failedToReadPrivateKey ∨ e = .failedToParsePrivateKey) ∧
          CreateTunnel env localPort remotePort bastion s
            = (.err e, { s with trace := s.trace ++ evs })) ∨
        CreateTunnel env localPort remotePort bastion s
          = (.err .failedToConnectToBastion,
              { s with trace := s.trace ++ (evs ++ [.dial (b.Host, b.Port) none]) }) ∨
        CreateTunnel env localPort remotePort bastion s
          = (.err .failedToStartLocalListener,
              { s with
                next := s.next + 1
                trace := s.trace ++ (evs ++ [.dial (b.Host, b.Port) (some s.next),
                  .listen ("localhost", localPort) none, .closeClient s.next]) }) ∨
        CreateTunnel env localPort remotePort bastion s
          = (.nil, created localPort remotePort b evs s))) := by
  by_cases hk : localPort ∈ mkeys s.tunnels
  · exact Or.inl ⟨hk, by simp [CreateTunnel, (mget_isSome_iff localPort s.tunnels).2 hk]⟩
  · have hn : mget localPort s.tunnels = none := (mget_eq_none_iff _ _).2 hk
    cases bastion with
    | none => exact Or.inr (Or.inl ⟨hk, rfl, by simp [CreateTunnel, hn]⟩)
    | some b =>
      refine Or.inr (Or.inr ⟨hk, b, ?_⟩)
      obtain ⟨evs, hs1, hevs⟩ := setupAuth_state env b s
      refine ⟨evs, rfl, hevs, ?_⟩
      rcases hsa : setupAuth env b s with ⟨r, s1⟩
      rw [hsa] at hs1
      simp only at hs1
      subst hs1
      cases r with
      | error e =>
        refine Or.inl ⟨e, ?_, by simp [CreateTunnel, hn, hsa]⟩
        unfold setupAuth at hsa
        split at hsa
        · split at hsa
          · simp only [Prod.mk.injEq, Except.error.injEq] at hsa
            exact Or.inl hsa.1.symm
          · split at hsa
            · simp only [Prod.mk.injEq, Except.error.injEq] at hsa
              exact Or.inr hsa.1.symm
            · simp at hsa
        · simp at hsa
      | ok auth =>
        refine Or.inr ?_
        by_cases hd : env.dial (b.Host, b.Port) { User := b.User, Auth := auth, Timeout := 10 } = true
        · by_cases hl : env.listen ("localhost", localPort) = true
          · refine Or.inr (Or.inr ?_)
            simp [CreateTunnel, hn, hsa, hd, hl, emit, created, newTunnel, Nat.add_assoc]
          · refine Or.inr (Or.inl ?_)
            simp [CreateTunnel, hn, hsa, hd, hl, emit]
        · refine Or.inl ?_
          simp [CreateTunnel, hn, hsa, hd, emit]

/-- C2: when `CreateTunnel` returns an error, the mapping and the heap are
unchanged, and among the effects of the call there is no successful listen,
no channel creation and no acceptor, and every client opened by the call was
closed by it. When the failure is not the listener's, no listen was even
attempted and no client was opened; when the listener fails, the call ends
with the dial, the failed listen and the close of that same client. -/
theorem createTunnel_error_releases (env : Env) (localPort remotePort : Int)
    (bastion : Option BastionConfig) (s s' : State) (e : Err)
    (h : CreateTunnel env localPort remotePort bastion s = (.err e, s')) :
    s'.tunnels = s.tunnels ∧ s'.heap = s.heap ∧
    ∃ evs, s'.trace = s.trace ++ evs ∧
      (∀ a l, Event.listen a (some l) ∉ evs) ∧
      (∀ d, Event.makeChan d ∉ evs) ∧
      (∀ p, Event.spawnAcceptor p ∉ evs) ∧
      (∀ a c, Event.dial a (some c) ∈ evs → Event.closeClient c ∈ evs) ∧
      (e ≠ .failedToStartLocalListener →
        (∀ a r, Event.listen a r ∉ evs) ∧ (∀ a c, Event.dial a (some c) ∉ evs)) ∧
      (e = .failedToStartLocalListener →
        ∃ pre a c, evs = pre ++ [.dial a (some c), .listen ("localhost", localPort) none,
          .closeClient c]) := by
  rcases createTunnel_cases env localPort remotePort bastion s with
    ⟨_, hc⟩ | ⟨_, _, hc⟩ | ⟨_, b, evs, _, hevs, hc⟩
  · rw [hc] at h
    simp only [Prod.mk.injEq, Result.err.injEq] at h
    obtain ⟨rfl, rfl⟩ := h
    exact ⟨rfl, rfl, [], by simp⟩
  · rw [hc] at h
    simp at h
  · have hne : ∀ ev ∈ evs, (∀ a r, ev ≠ Event.listen a r) ∧ (∀ a r, ev ≠ Event.dial a r) ∧
        (∀ d, ev ≠ Event.makeChan d) ∧ (∀ p, ev ≠ Event.spawnAcceptor p) := by
      intro ev hev
      obtain ⟨path, ok, rfl⟩ := hevs ev hev
      simp
    rcases hc with ⟨e1, he1, hc⟩ | hc | hc | hc
    · rw [hc] at h
      simp only [Prod.mk.injEq, Result.err.injEq] at h
      obtain ⟨rfl, rfl⟩ := h
      refine ⟨rfl, rfl, evs, rfl, ?_, ?_, ?_, ?_, ?_, ?_⟩
      · exact fun a l hm => (hne _ hm).1 a _ rfl
      · exact fun d hm => (hne _ hm).2.2.1 d rfl
      · exact fun p hm => (hne _ hm).2.2.2 p rfl
      · exact fun a c hm => absurd rfl ((hne _ hm).2.1 a (some c))
      · intro _
        exact ⟨fun a r hm => (hne _ hm).1 a r rfl, fun a c hm => (hne _ hm).2.1 a _ rfl⟩
      · rintro rfl
        simp at he1
    · rw [hc] at h
      simp only [Prod.mk.injEq, Result.err.injEq] at h
      obtain ⟨rfl, rfl⟩ := h
      refine ⟨rfl, rfl, _, rfl, ?_, ?_, ?_, ?_, ?_, ?_⟩
      · intro a l hm
        rcases List.mem_append.1 hm with hm | hm
        · exact (hne _ hm).1 a _ rfl
        · simp at hm
      · intro d hm
        rcases List.mem_append.1 hm with hm | hm
        · exact (hne _ hm).2.2.1 d rfl
        · simp at hm
      · intro p hm
        rcases List.mem_append.1 hm with hm | hm
        · exact (hne _ hm).2.2.2 p rfl
        · simp at hm
      · intro a c hm
        rcases List.mem_append.1 hm with hm | hm
        · exact absurd rfl ((hne _ hm).2.1 a (some c))
        · simp at hm
      · intro _
        refine ⟨fun a r hm => ?_, fun a c hm => ?_⟩
        · rcases List.mem_append.1 hm with hm | hm
          · exact (hne _ hm).1 a r rfl
          · simp at hm
        · rcases List.mem_append.1 hm with hm | hm
          · exact (hne _ hm).2.1 a _ rfl
          · simp at hm
      · intro hcon
        simp at hcon
    · rw [hc] at h
      simp only [Prod.mk.injEq, Result.err.injEq] at h
      obtain ⟨rfl, rfl⟩ := h
      refine ⟨rfl, rfl, _, rfl, ?_, ?_, ?_, ?_, ?_, ?_⟩
      · intro a l hm
        rcases List.mem_append.1 hm with hm | hm
        · exact (hne _ hm).1 a _ rfl
        · simp at hm
      · intro d hm
        rcases List.mem_append.1 hm with hm | hm
        · exact (hne _ hm).2.2.1 d rfl
        · simp at hm
      · intro p hm
        rcases List.mem_append.1 hm with hm | hm
        · exact (hne _ hm).2.2.2 p rfl
        · simp at hm
      · intro a c hm
        rcases List.mem_append.1 hm with hm | hm
        · exact absurd rfl ((hne _ hm).2.1 a (some c))
        · simp only [List.mem_cons, Event.dial.injEq, Option.some.injEq, List.mem_singleton,
            List.not_mem_nil, or_false, reduceCtorEq] at hm
          simp [hm.2]
      · intro hcon
        exact absurd rfl hcon
      · intro _
        exact ⟨evs, (b.Host, b.Port), s.next, rfl⟩
    · rw [hc] at h
      simp at h

/-! ## The pump -/

theorem store_len (buffer : Slice) (data : List Byte) : (buffer.store data).len = buffer.len := rfl

theorem store_upTo (buffer : Slice) (data : List Byte) :
    (buffer.store data).upTo data.length = data := by
  apply List.ext_getElem
  · simp [Slice.upTo]
  · intro i h1 h2
    simp only [Slice.upTo, List.length_map, List.length_range] at h1
    simp [Slice.upTo, Slice.store, List.getD_eq_getElem?_getD, List.getElem?_eq_getElem h2]

theorem chunksWritten_append (c : Conn) (tr1 tr2 : List ConnEvent) :
    chunksWritten c (tr1 ++ tr2) = chunksWritten c tr1 ++ chunksWritten c tr2 := by
  induction tr1 with
  | nil => rfl
  | cons ev tr1 ih =>
    cases ev with
    | write c' data err =>
      by_cases hc : c' = c <;> simp [chunksWritten, hc, ih]
    | _ => simpa [chunksWritten] using ih

theorem chunksWritten_pumped (dst src : Conn) (oks : List ReadResult) :
    chunksWritten dst (pumped dst src oks) = oks.map ReadResult.data := by
  induction oks with
  | nil => rfl
  | cons r oks ih => simp [pumped, chunksWritten, ih]

theorem copyLoop_all_ok (dst src : Conn) (e : ReadResult) (he : e.err = true) :
    ∀ (oks : List ReadResult) (buffer : Slice) (writes : List Bool) (tr : List ConnEvent),
      (∀ r ∈ oks, r.err = false ∧ r.data.length ≤ buffer.len) →
      (∀ w ∈ writes, w = false) → oks.length ≤ writes.length →
      copyLoop dst src buffer (oks ++ [e]) writes tr
        = some (.returned, tr ++ (pumped dst src oks ++ [.read src e.data true])) := by
  intro oks
  induction oks with
  | nil =>
    intro buffer writes tr _ _ _
    simp [copyLoop, he, pumped]
  | cons r oks ih =>
    intro buffer writes tr hr hw hlen
    have hr0 := hr r (List.mem_cons_self _ _)
    cases writes with
    | nil => simp at hlen
    | cons w writes =>
      have hw0 : w = false := hw w (List.mem_cons_self _ _)
      subst hw0
      have hlt : ¬ buffer.len < r.data.length := Nat.not_lt.2 hr0.2
      have := ih (buffer.store r.data) writes
        (tr ++ [.read src r.data r.err] ++ [.write dst ((buffer.store r.data).upTo r.data.length) false])
        (fun r' h' => hr r' (List.mem_cons_of_mem _ h'))
        (fun w' h' => hw w' (List.mem_cons_of_mem _ h'))
        (by simpa using hlen)
      rw [hr0.1] at this
      simp only [List.cons_append, copyLoop, hr0.1, store_len, hlt, if_false, Bool.false_eq_true]
      refine Eq.trans this ?_
      rw [store_upTo]
      simp [pumped]

/-- C7, as the code has it: when `src` delivers the successful reads `oks`,
each of at most 32768 bytes, and then a failing read `e`, and every write on
`dst` succeeds, `copyData` returns and the chunks it wrote to `dst` are, call
by call, the data of the successful reads; so their concatenation is the
concatenation of the bytes those reads delivered, in order, whatever their
total length. It is the concatenation of all bytes delivered by `src` when
the failing read carries no bytes. -/
theorem copyData_byte_exact (dst src : Conn) (oks : List ReadResult) (e : ReadResult)
    (writes : List Bool)
    (hoks : ∀ r ∈ oks, r.err = false ∧ r.data.length ≤ 32768)
    (he : e.err = true)
    (hw : ∀ w ∈ writes, w = false) (hlen : oks.length ≤ writes.length) :
    ∃ tr, copyData dst src (oks ++ [e]) writes = some (.returned, tr) ∧
      chunksWritten dst tr = oks.map ReadResult.data ∧
      (chunksWritten dst tr).flatten = (oks.map ReadResult.data).flatten ∧
      (e.data = [] → (chunksWritten dst tr).flatten
        = ((oks ++ [e]).map ReadResult.data).flatten) := by
  have hl := copyLoop_all_ok dst src e he oks (makeBytes (32 * 1024)) writes []
    (by simpa [makeBytes] using hoks) hw hlen
  have hch : chunksWritten dst ([] ++ (pumped dst src oks ++ [.read src e.data true])
      ++ [.close src, .close dst]) = oks.map ReadResult.data := by
    simp [chunksWritten_append, chunksWritten_pumped, chunksWritten]
  refine ⟨_, by simp only [copyData, hl], hch, by rw [hch], ?_⟩
  intro hnil
  rw [hch]
  simp [hnil]

theorem copyData_byte_exact_witness :
    ∃ tr, copyData 1 2 ([⟨[1, 2, 3], false⟩, ⟨[4], false⟩] ++ [⟨[], true⟩]) [false, false]
        = some (.returned, tr) ∧
      chunksWritten 1 tr = [[1, 2, 3], [4]] ∧
      (chunksWritten 1 tr).flatten = [1, 2, 3, 4] ∧
      (([] : List Byte) = [] → (chunksWritten 1 tr).flatten = [1, 2, 3, 4]) :=
  copyData_byte_exact 1 2 [⟨[1, 2, 3], false⟩, ⟨[4], false⟩] ⟨[], true⟩ [false, false]
    (by decide) rfl (by decide) (by decide)

/-- C7 as stated fails: when `src` delivers the successful read `[1]` and
then a read that returns the byte `9` together with an error, and the write
on `dst` succeeds, `copyData` returns having written `[1]` only, while the
bytes delivered by `src` are `[1, 9]`: the byte of the failing read is lost. -/
theorem copyData_loses_bytes_of_failing_read :
    copyData 1 2 [⟨[1], false⟩, ⟨[9], true⟩] [false]
      = some (.returned, [.read 2 [1] false, .write 1 [1] false, .read 2 [9] true,
          .close 2, .close 1]) ∧
    (chunksWritten 1 [.read 2 [1] false, .write 1 [1] false, .read 2 [9] true,
      .close 2, .close 1]).flatten = [1] ∧
    (([⟨[1], false⟩, ⟨[9], true⟩] : List ReadResult).map ReadResult.data).flatten = [1, 9] ∧
    ¬ ∃ tr, copyData 1 2 [⟨[1], false⟩, ⟨[9], true⟩] [false] = some (.returned, tr) ∧
      (chunksWritten 1 tr).flatten
        = (([⟨[1], false⟩, ⟨[9], true⟩] : List ReadResult).map ReadResult.data).flatten := by
  have hrun : copyData 1 2 [⟨[1], false⟩, ⟨[9], true⟩] [false]
      = some (.returned, [.read 2 [1] false, .write 1 [1] false, .read 2 [9] true,
          .close 2, .close 1]) := by decide
  refine ⟨hrun, by decide, by decide, ?_⟩
  rintro ⟨tr, h1, h2⟩
  rw [hrun] at h1
  simp only [Option.some.injEq, Prod.mk.injEq, true_and] at h1
  subst h1
  revert h2
  decide

theorem copyLoop_exit (dst src : Conn) :
    ∀ (reads : List ReadResult) (buffer : Slice) (writes : List Bool) (tr : List ConnEvent)
      (ex : Exit) (tr' : List ConnEvent),
      copyLoop dst src buffer reads writes tr = some (ex, tr') →
      ∃ mid last, tr' = tr ++ (mid ++ [last]) ∧
        (∀ ev ∈ mid ++ [last], ∀ c, ev ≠ ConnEvent.close c) ∧
        (ex = .returned →
          (∃ data, last = .read src data true) ∨ (∃ data, last = .write dst data true)) := by
  intro reads
  induction reads with
  | nil =>
    intro buffer writes tr ex tr' h
    simp [copyLoop] at h
  | cons r reads ih =>
    intro buffer writes tr ex tr' h
    simp only [copyLoop] at h
    split at h
    · rename_i herr
      simp only [Option.some.injEq, Prod.mk.injEq] at h
      obtain ⟨rfl, rfl⟩ := h
      exact ⟨[], .read src r.data r.err, by simp, by simp, fun _ => Or.inl ⟨r.data, by rw [herr]⟩⟩
    · split at h
      · simp only [Option.some.injEq, Prod.mk.injEq] at h
        obtain ⟨rfl, rfl⟩ := h
        exact ⟨[], .read src r.data r.err, by simp, by simp, fun hc => by simp at hc⟩
      · split at h
        · simp at h
        · rename_i w writes1
          split at h
          · rename_i hw
            simp only [Option.some.injEq, Prod.mk.injEq] at h
            obtain ⟨rfl, rfl⟩ := h
            refine ⟨[.read src r.data r.err], .write dst ((buffer.store r.data).upTo r.data.length) w,
              by simp, by simp, fun _ => ?_⟩
            exact Or.inr ⟨_, by rw [hw]⟩
          · obtain ⟨mid, last, rfl, hnc, hlast⟩ := ih _ _ _ _ _ h
            refine ⟨.read src r.data r.err ::
              .write dst ((buffer.store r.data).upTo r.data.length) w :: mid, last, by simp, ?_, hlast⟩
            intro ev hev c
            simp only [List.cons_append, List.mem_cons] at hev
            rcases hev with rfl | rfl | hev
            · simp
            · simp
            · exact hnc ev hev c

theorem copyData_exit (dst src : Conn) (reads : List ReadResult) (writes : List Bool)
    (ex : Exit) (tr : List ConnEvent)
    (h : copyData dst src reads writes = some (ex, tr)) :
    ∃ pre last, tr = pre ++ [last, .close src, .close dst] ∧
      (∀ ev ∈ pre ++ [last], ∀ c, ev ≠ ConnEvent.close c) ∧
      (ex = .returned →
        (∃ data, last = .read src data true) ∨ (∃ data, last = .write dst data true)) := by
  unfold copyData at h
  split at h
  · simp at h
  · rename_i ex1 tr1 hloop
    simp only [Option.some.injEq, Prod.mk.injEq] at h
    obtain ⟨rfl, rfl⟩ := h
    obtain ⟨mid, last, htr, hnc, hlast⟩ := copyLoop_exit dst src _ _ _ _ _ _ hloop
    simp only [List.nil_append] at htr
    subst htr
    exact ⟨mid, last, by simp, hnc, hlast⟩

theorem runCopyTask_exit (t : CopyTask) (reads : List ReadResult) (writes : List Bool)
    (ex : Exit) (tr : List ConnEvent) (h : runCopyTask t reads writes = some (ex, tr)) :
    ∃ body, copyData t.dst t.src reads writes = some (ex, body) ∧
      tr = body ++ [.close t.remote, .close t.localConn] := by
  unfold runCopyTask at h
  split at h
  · simp at h
  · rename_i ex1 body hcopy
    simp only [Option.some.injEq, Prod.mk.injEq] at h
    obtain ⟨rfl, rfl⟩ := h
    exact ⟨body, hcopy, rfl⟩

/-- C10: whenever `copyData dst src` exits, its last operations are
`src.Close()` and `dst.Close()`, nothing was closed before them, and when it
exits by returning, the operation just before them is a failed read on `src`
or a failed write on `dst`. When the remote dial succeeds `handleConnection`
starts exactly two copy goroutines, one copying from `remote` to `local` and
one from `local` to `remote`; whenever one of them ends, whatever the
outcomes of its reads and writes, its `copyData` has closed both `local` and
`remote` when it exits, and the goroutine closes both once more before it
ends. When the remote dial fails `handleConnection` starts no goroutine and
closes `local`. -/
theorem copyData_closes_both (dst src : Conn) (reads : List ReadResult) (writes : List Bool)
    (ex : Exit) (tr : List ConnEvent)
    (h : copyData dst src reads writes = some (ex, tr)) :
    (∃ pre last, tr = pre ++ [last, .close src, .close dst] ∧
      (∀ ev ∈ pre ++ [last], ∀ c, ev ≠ ConnEvent.close c) ∧
      (ex = .returned →
        (∃ data, last = .read src data true) ∨ (∃ data, last = .write dst data true))) ∧
    (∀ (tunnel : Tunnel) (localConn remote : Conn),
      (handleConnection tunnel localConn (some remote)).2
        = [{ localConn := localConn, remote := remote, dst := localConn, src := remote },
           { localConn := localConn, remote := remote, dst := remote, src := localConn }] ∧
      (∀ t ∈ (handleConnection tunnel localConn (some remote)).2,
        ∀ (reads1 : List ReadResult) (writes1 : List Bool) (ex1 : Exit) (tr1 : List ConnEvent),
          runCopyTask t reads1 writes1 = some (ex1, tr1) →
          ∃ body pre last, copyData t.dst t.src reads1 writes1 = some (ex1, body) ∧
            body = pre ++ [last, .close t.src, .close t.dst] ∧
            (∀ ev ∈ pre ++ [last], ∀ c, ev ≠ ConnEvent.close c) ∧
            ConnEvent.close localConn ∈ body ∧ ConnEvent.close remote ∈ body ∧
            tr1 = body ++ [.close remote, .close localConn]) ∧
      (∀ t ∈ (handleConnection tunnel localConn (some remote)).2, t.dst = dst → t.src = src →
        ConnEvent.close localConn ∈ tr ∧ ConnEvent.close remote ∈ tr ∧
        runCopyTask t reads writes = some (ex, tr ++ [.close remote, .close localConn])) ∧
      handleConnection tunnel localConn none
        = ([.dialRemote tunnel.client ("localhost", tunnel.RemotePort) none, .print,
            .close localConn], [])) := by
  refine ⟨copyData_exit dst src reads writes ex tr h, ?_⟩
  intro tunnel localConn remote
  refine ⟨rfl, ?_, ?_, rfl⟩
  · intro t ht reads1 writes1 ex1 tr1 hrun
    obtain ⟨body, hcopy, htr1⟩ := runCopyTask_exit t reads1 writes1 ex1 tr1 hrun
    obtain ⟨pre, last, hbody, hnc, _⟩ := copyData_exit t.dst t.src reads1 writes1 ex1 body hcopy
    simp only [handleConnection, List.mem_cons, List.mem_singleton, List.not_mem_nil,
      or_false] at ht
    rcases ht with rfl | rfl
    · exact ⟨body, pre, last, hcopy, hbody, hnc, by simp [hbody], by simp [hbody],
        by simpa using htr1⟩
    · exact ⟨body, pre, last, hcopy, hbody, hnc, by simp [hbody], by simp [hbody],
        by simpa using htr1⟩
  · intro t ht hd hs
    obtain ⟨pre, last, hbody, _, _⟩ := copyData_exit dst src reads writes ex tr h
    have hrun : runCopyTask t reads writes
        = some (ex, tr ++ [.close t.remote, .close t.localConn]) := by
      simp only [runCopyTask, hd, hs, h]
    simp only [handleConnection, List.mem_cons, List.mem_singleton, List.not_mem_nil,
      or_false] at ht
    rcases ht with rfl | rfl
    · simp only at hd hs
      subst hd hs
      exact ⟨by simp [hbody], by simp [hbody], hrun⟩
    · simp only at hd hs
      subst hd hs
      exact ⟨by simp [hbody], by simp [hbody], hrun⟩

theorem copyData_closes_both_witness :
    copyData 1 2 [⟨[1, 2, 3], false⟩, ⟨[], true⟩] [false]
      = some (.returned, [.read 2 [1, 2, 3] false, .write 1 [1, 2, 3] false, .read 2 [] true,
          .close 2, .close 1]) ∧
    (∃ pre last, [ConnEvent.read 2 [1, 2, 3] false, .write 1 [1, 2, 3] false, .read 2 [] true,
          .close 2, .close 1] = pre ++ [last, .close 2, .close 1] ∧
      (∀ ev ∈ pre ++ [last], ∀ c, ev ≠ ConnEvent.close c) ∧
      (Exit.returned = .returned →
        (∃ data, last = .read 2 data true) ∨ (∃ data, last = .write 1 data true))) ∧
    (handleConnection tunnel8080 1 (some 2)).2
      = [{ localConn := 1, remote := 2, dst := 1, src := 2 },
         { localConn := 1, remote := 2, dst := 2, src := 1 }] ∧
    (ConnEvent.close 1 ∈ [ConnEvent.read 2 [1, 2, 3] false, .write 1 [1, 2, 3] false,
        .read 2 [] true, .close 2, .close 1] ∧
      ConnEvent.close 2 ∈ [ConnEvent.read 2 [1, 2, 3] false, .write 1 [1, 2, 3] false,
        .read 2 [] true, .close 2, .close 1] ∧
      runCopyTask { localConn := 1, remote := 2, dst := 1, src := 2 }
          [⟨[1, 2, 3], false⟩, ⟨[], true⟩] [false]
        = some (.returned, [.read 2 [1, 2, 3] false, .write 1 [1, 2, 3] false, .read 2 [] true,
            .close 2, .close 1] ++ [.close 2, .close 1])) :=
  have h := copyData_closes_both 1 2 [⟨[1, 2, 3], false⟩, ⟨[], true⟩] [false] .returned
    [.read 2 [1, 2, 3] false, .write 1 [1, 2, 3] false, .read 2 [] true, .close 2, .close 1]
    (by decide)
  ⟨by decide, h.1, (h.2 tunnel8080 1 2).1,
    (h.2 tunnel8080 1 2).2.2.1 { localConn := 1, remote := 2, dst := 1, src := 2 }
      (by decide) rfl rfl⟩

/-! ## Well-formed registries -/

theorem mem_dialed (h : Handle) (tr : List Event) :
    h ∈ dialed tr ↔ ∃ a, Event.dial a (some h) ∈ tr := by
  induction tr with
  | nil => simp [dialed]
  | cons ev tr ih =>
    cases ev with
    | dial a r =>
      cases r with
      | none => simp [dialed, ih]
      | some h' =>
        simp only [dialed, List.mem_cons, ih, Event.dial.injEq, Option.some.injEq]
        constructor
        · rintro (rfl | ⟨a', ha'⟩)
          · exact ⟨a, Or.inl ⟨rfl, rfl⟩⟩
          · exact ⟨a', Or.inr ha'⟩
        · rintro ⟨a', ⟨_, rfl⟩ | ha'⟩
          · exact Or.inl rfl
          · exact Or.inr ⟨a', ha'⟩
    | _ => simp [dialed, ih]

theorem dialed_append (tr1 tr2 : List Event) : dialed (tr1 ++ tr2) = dialed tr1 ++ dialed tr2 := by
  induction tr1 with
  | nil => rfl
  | cons ev tr1 ih =>
    cases ev with
    | dial a r => cases r <;> simp [dialed, ih]
    | _ => simp [dialed, ih]

theorem mem_mdelete {κ ν : Type} [DecidableEq κ] (k : κ) (m : List (κ × ν)) (e : κ × ν) :
    e ∈ mdelete k m ↔ e ∈ m ∧ e.1 ≠ k := by
  simp [mdelete]

theorem mdelete_absent {κ ν : Type} [DecidableEq κ] (k : κ) (m : List (κ × ν))
    (h : k ∉ mkeys m) : mdelete k m = m := by
  unfold mdelete
  rw [List.filter_eq_self]
  intro e he
  have : e.1 ≠ k := by
    rintro rfl
    exact h (List.mem_map_of_mem Prod.fst he)
  simpa using this

theorem mkeys_mdelete_nodup {κ ν : Type} [DecidableEq κ] (k : κ) (m : List (κ × ν))
    (h : (mkeys m).Nodup) : (mkeys (mdelete k m)).Nodup := by
  unfold mkeys mdelete
  exact (List.Sublist.map Prod.fst (List.filter_sublist m)).nodup h

theorem mem_of_mget {κ ν : Type} [DecidableEq κ] (k : κ) (v : ν) (m : List (κ × ν))
    (h : mget k m = some v) : (k, v) ∈ m := by
  induction m with
  | nil => simp [mget] at h
  | cons e m ih =>
    obtain ⟨k', v'⟩ := e
    by_cases hk : k' = k
    · simp only [mget, hk, if_true, Option.some.injEq] at h
      simp [hk, h]
    · simp only [mget, hk, if_false] at h
      exact List.mem_cons_of_mem _ (ih h)

theorem mget_of_mem {κ ν : Type} [DecidableEq κ] (k : κ) (v : ν) (m : List (κ × ν))
    (hn : (mkeys m).Nodup) (h : (k, v) ∈ m) : mget k m = some v := by
  induction m with
  | nil => simp at h
  | cons e m ih =>
    obtain ⟨k', v'⟩ := e
    simp only [mkeys, List.map_cons, List.nodup_cons] at hn
    rcases List.mem_cons.1 h with heq | hm
    · simp only [Prod.mk.injEq] at heq
      simp [mget, heq.1, heq.2]
    · have hk : k' ≠ k := by
        rintro rfl
        exact hn.1 (List.mem_map_of_mem Prod.fst hm)
      simp only [mget, hk, if_false]
      exact ih hn.2 hm

theorem wellFormed_new : WellFormed NewTunnelManager where
  keys_nodup := by simp [NewTunnelManager, mkeys]
  registered := by simp [NewTunnelManager]
  unshared := by simp [NewTunnelManager]
  owned_listener := by simp [NewTunnelManager, listenerOpen]
  owned_client := by simp [NewTunnelManager, clientOpen, dialed]
  fresh_trace := by simp [NewTunnelManager]
  fresh_heap := by simp [NewTunnelManager, mget]

theorem listenerOpen_lt (s : State) (hs : WellFormed s) (h : Handle) (port : Int)
    (ho : listenerOpen s h port) : h < s.next :=
  hs.fresh_trace _ ho.1 h (by simp [Event.handles])

theorem clientOpen_lt (s : State) (hs : WellFormed s) (h : Handle) (ho : clientOpen s h) :
    h < s.next := by
  obtain ⟨a, ha⟩ := (mem_dialed h s.trace).1 ho.1
  exact hs.fresh_trace _ ha h (by simp [Event.handles])

theorem chanOpen_lt (s : State) (hs : WellFormed s) (h : Handle) (ho : chanOpen s h) :
    h < s.next :=
  hs.fresh_trace _ ho.1 h (by simp [Event.handles])

/-- Appending effects that bind no listener, close only handles not yet
allocated and close every client they open keeps the registry well formed. -/
theorem wellFormed_extend (s : State) (hs : WellFormed s) (n' : Nat) (evs : List Event)
    (hn : s.next ≤ n')
    (hfresh : ∀ ev ∈ evs, ∀ h ∈ ev.handles, h < n')
    (hlisten : ∀ a h, Event.listen a (some h) ∉ evs)
    (hcl : ∀ h, Event.closeListener h ∈ evs → s.next ≤ h)
    (hcc : ∀ h, Event.closeClient h ∈ evs → s.next ≤ h)
    (hcd : ∀ h, Event.closeChan h ∈ evs → s.next ≤ h)
    (hdial : ∀ h, h ∈ dialed evs → Event.closeClient h ∈ evs) :
    WellFormed { s with next := n', trace := s.trace ++ evs } := by
  have keepL : ∀ h port, listenerOpen s h port →
      listenerOpen { s with next := n', trace := s.trace ++ evs } h port := by
    intro h port ho
    refine ⟨List.mem_append_left _ ho.1, ?_⟩
    intro hm
    rcases List.mem_append.1 hm with hm | hm
    · exact ho.2 hm
    · exact absurd (listenerOpen_lt s hs h port ho) (Nat.not_lt.2 (hcl h hm))
  have keepC : ∀ h, clientOpen s h →
      clientOpen { s with next := n', trace := s.trace ++ evs } h := by
    intro h ho
    refine ⟨by simp only [dialed_append]; exact List.mem_append_left _ ho.1, ?_⟩
    intro hm
    rcases List.mem_append.1 hm with hm | hm
    · exact ho.2 hm
    · exact absurd (clientOpen_lt s hs h ho) (Nat.not_lt.2 (hcc h hm))
  have keepD : ∀ h, chanOpen s h →
      chanOpen { s with next := n', trace := s.trace ++ evs } h := by
    intro h ho
    refine ⟨List.mem_append_left _ ho.1, ?_⟩
    intro hm
    rcases List.mem_append.1 hm with hm | hm
    · exact ho.2 hm
    · exact absurd (chanOpen_lt s hs h ho) (Nat.not_lt.2 (hcd h hm))
  refine ⟨hs.keys_nodup, ?_, hs.unshared, ?_, ?_, ?_, ?_⟩
  · intro port p hp
    obtain ⟨t, ht, hport, hl, hc, hd⟩ := hs.registered port p hp
    exact ⟨t, ht, hport, keepL _ _ hl, keepC _ hc, keepD _ hd⟩
  · intro h port ho
    apply hs.owned_listener h port
    refine ⟨?_, fun hm => ho.2 (List.mem_append_left _ hm)⟩
    rcases List.mem_append.1 ho.1 with hm | hm
    · exact hm
    · exact absurd hm (hlisten _ _)
  · intro h ho
    apply hs.owned_client h
    refine ⟨?_, fun hm => ho.2 (List.mem_append_left _ hm)⟩
    have hd := ho.1
    simp only [dialed_append] at hd
    rcases List.mem_append.1 hd with hm | hm
    · exact hm
    · exact absurd (List.mem_append_right _ (hdial h hm)) ho.2
  · intro ev hev h hh
    rcases List.mem_append.1 hev with hm | hm
    · exact Nat.lt_of_lt_of_le (hs.fresh_trace ev hm h hh) hn
    · exact hfresh ev hm h hh
  · intro p t hp
    exact Nat.lt_of_lt_of_le (hs.fresh_heap p t hp) hn

theorem created_eq (localPort remotePort : Int) (b : BastionConfig) (evs : List Event)
    (s : State) :
    created localPort remotePort b evs s
      = created localPort remotePort b [] { s with trace := s.trace ++ evs } := by
  simp [created]

theorem wellFormed_readFiles (s : State) (hs : WellFormed s) (evs : List Event)
    (hevs : ∀ ev ∈ evs, ∃ path ok, ev = Event.readFile path ok) :
    WellFormed { s with trace := s.trace ++ evs } := by
  have hne : ∀ ev ∈ evs, ev.handles = [] ∧ (∀ a r, ev ≠ Event.listen a r) ∧
      (∀ h, ev ≠ Event.closeListener h) ∧ (∀ h, ev ≠ Event.closeClient h) ∧
      (∀ h, ev ≠ Event.closeChan h) ∧ (∀ a r, ev ≠ Event.dial a r) := by
    intro ev hev
    obtain ⟨path, ok, rfl⟩ := hevs ev hev
    simp [Event.handles]
  refine wellFormed_extend s hs s.next evs (Nat.le_refl _) ?_ ?_ ?_ ?_ ?_ ?_
  · intro ev hev h hh
    rw [(hne ev hev).1] at hh
    simp at hh
  · exact fun a h hm => (hne _ hm).2.1 a _ rfl
  · exact fun h hm => absurd rfl ((hne _ hm).2.2.1 h)
  · exact fun h hm => absurd rfl ((hne _ hm).2.2.2.1 h)
  · exact fun h hm => absurd rfl ((hne _ hm).2.2.2.2.1 h)
  · intro h hm
    obtain ⟨a, ha⟩ := (mem_dialed h evs).1 hm
    exact absurd rfl ((hne _ ha).2.2.2.2.2 a (some h))

theorem wellFormed_created_nil (localPort remotePort : Int) (b : BastionConfig) (s : State)
    (hs : WellFormed s) (hk : localPort ∉ mkeys s.tunnels) :
    WellFormed (created localPort remotePort b [] s) := by
  have htun : (created localPort remotePort b [] s).tunnels
      = (localPort, s.next + 3) :: s.tunnels := by
    simp [created, mset, mdelete_absent localPort s.tunnels hk]
  have hold : ∀ p t, mget p s.heap = some t →
      mget p (created localPort remotePort b [] s).heap = some t := by
    intro p t hp
    have hlt : (p : Nat) < s.next := hs.fresh_heap p t hp
    have hne : ¬ s.next + 3 = p := by
      intro h
      subst h
      exact Nat.lt_irrefl _ (Nat.lt_of_le_of_lt (Nat.le_add_right _ 3) hlt)
    simpa [created, mget, hne] using hp
  have hnewp : mget (s.next + 3) (created localPort remotePort b [] s).heap
      = some (newTunnel localPort remotePort b s.next) := by
    simp [created, mget]
  have hfreshL : ∀ h, s.next ≤ h → Event.closeListener h ∉ s.trace := fun h hle hm =>
    absurd (hs.fresh_trace _ hm h (by simp [Event.handles])) (Nat.not_lt.2 hle)
  have hfreshC : ∀ h, s.next ≤ h → Event.closeClient h ∉ s.trace := fun h hle hm =>
    absurd (hs.fresh_trace _ hm h (by simp [Event.handles])) (Nat.not_lt.2 hle)
  have hfreshD : ∀ h, s.next ≤ h → Event.closeChan h ∉ s.trace := fun h hle hm =>
    absurd (hs.fresh_trace _ hm h (by simp [Event.handles])) (Nat.not_lt.2 hle)
  have keepL : ∀ h port, listenerOpen s h port →
      listenerOpen (created localPort remotePort b [] s) h port := by
    intro h port ho
    refine ⟨by simp [created, ho.1], ?_⟩
    simpa [created] using ho.2
  have keepC : ∀ h, clientOpen s h → clientOpen (created localPort remotePort b [] s) h := by
    intro h ho
    refine ⟨by simp [created, dialed_append, ho.1], ?_⟩
    simpa [created] using ho.2
  have keepD : ∀ h, chanOpen s h → chanOpen (created localPort remotePort b [] s) h := by
    intro h ho
    refine ⟨by simp [created, ho.1], ?_⟩
    simpa [created] using ho.2
  have newL : listenerOpen (created localPort remotePort b [] s) (s.next + 1) localPort :=
    ⟨by simp [created], by simpa [created] using hfreshL (s.next + 1) (by omega)⟩
  have newC : clientOpen (created localPort remotePort b [] s) s.next :=
    ⟨by simp [created, dialed_append, dialed],
      by simpa [created] using hfreshC s.next (Nat.le_refl _)⟩
  have newD : chanOpen (created localPort remotePort b [] s) (s.next + 2) :=
    ⟨by simp [created], by simpa [created] using hfreshD (s.next + 2) (by omega)⟩
  -- every entry of the new mapping, with the tunnel it points to
  have hentry : ∀ port p t, (port, p) ∈ (created localPort remotePort b [] s).tunnels →
      mget p (created localPort remotePort b [] s).heap = some t →
      (port = localPort ∧ p = s.next + 3 ∧ t = newTunnel localPort remotePort b s.next) ∨
      ((port, p) ∈ s.tunnels ∧ mget p s.heap = some t) := by
    intro port p t hp ht
    rw [htun] at hp
    rcases List.mem_cons.1 hp with heq | hm
    · simp only [Prod.mk.injEq] at heq
      obtain ⟨rfl, rfl⟩ := heq
      rw [hnewp] at ht
      exact Or.inl ⟨rfl, rfl, (Option.some.inj ht).symm⟩
    · obtain ⟨t0, ht0, _⟩ := hs.registered port p hm
      rw [hold p t0 ht0] at ht
      exact Or.inr ⟨hm, by rw [ht0, ← Option.some.inj ht]⟩
  refine ⟨?_, ?_, ?_, ?_, ?_, ?_, ?_⟩
  · rw [htun]
    simpa [mkeys] using ⟨fun p hp => hk (List.mem_map_of_mem Prod.fst hp), hs.keys_nodup⟩
  · intro port p hp
    rw [htun] at hp
    rcases List.mem_cons.1 hp with heq | hm
    · simp only [Prod.mk.injEq] at heq
      obtain ⟨rfl, rfl⟩ := heq
      exact ⟨_, hnewp, rfl, newL, newC, newD⟩
    · obtain ⟨t, ht, hport, hl, hc, hd⟩ := hs.registered port p hm
      exact ⟨t, hold p t ht, hport, keepL _ _ hl, keepC _ hc, keepD _ hd⟩
  · intro port p t port' p' t' hp ht hp' ht' hshare
    rcases hentry port p t hp ht with ⟨rfl, rfl, rfl⟩ | ⟨hm, hg⟩ <;>
      rcases hentry port' p' t' hp' ht' with ⟨rfl, rfl, rfl⟩ | ⟨hm', hg'⟩
    · rfl
    · obtain ⟨t0, ht0, _, hl, hc, hd⟩ := hs.registered port' p' hm'
      have e : t' = t0 := by rw [hg'] at ht0; exact Option.some.inj ht0
      rw [← e] at hl hc hd
      have h1 : (t'.listener : Nat) < s.next := listenerOpen_lt s hs _ _ hl
      have h2 : (t'.client : Nat) < s.next := clientOpen_lt s hs _ hc
      have h3 : (t'.done : Nat) < s.next := chanOpen_lt s hs _ hd
      simp only [newTunnel] at hshare
      rcases hshare with h | h | h
      · rw [← h] at h1; exact absurd h1 (by simp)
      · rw [← h] at h2; exact absurd h2 (by simp)
      · rw [← h] at h3; exact absurd h3 (by simp)
    · obtain ⟨t0, ht0, _, hl, hc, hd⟩ := hs.registered port p hm
      have e : t = t0 := by rw [hg] at ht0; exact Option.some.inj ht0
      rw [← e] at hl hc hd
      have h1 : (t.listener : Nat) < s.next := listenerOpen_lt s hs _ _ hl
      have h2 : (t.client : Nat) < s.next := clientOpen_lt s hs _ hc
      have h3 : (t.done : Nat) < s.next := chanOpen_lt s hs _ hd
      simp only [newTunnel] at hshare
      rcases hshare with h | h | h
      · rw [h] at h1; exact absurd h1 (by simp)
      · rw [h] at h2; exact absurd h2 (by simp)
      · rw [h] at h3; exact absurd h3 (by simp)
    · exact hs.unshared port p t port' p' t' hm hg hm' hg' hshare
  · intro h port ho
    have h1 := ho.1
    have h2 := ho.2
    simp only [created, List.nil_append, List.mem_append, List.mem_cons, Event.listen.injEq,
      Prod.mk.injEq, Option.some.injEq, List.mem_singleton, List.not_mem_nil, or_false,
      reduceCtorEq, false_or, true_and, not_or] at h1 h2
    rcases h1 with hm | ⟨rfl, rfl⟩
    · obtain ⟨p, t, hp, ht, hh⟩ := hs.owned_listener h port ⟨hm, h2⟩
      exact ⟨p, t, by rw [htun]; exact List.mem_cons_of_mem _ hp, hold p t ht, hh⟩
    · exact ⟨s.next + 3, _, by rw [htun]; exact List.mem_cons_self _ _, hnewp, rfl⟩
  · intro h ho
    have h1 := ho.1
    have h2 := ho.2
    simp only [created, List.nil_append, dialed_append, dialed, List.mem_append, List.mem_cons,
      List.mem_singleton, List.not_mem_nil, or_false, reduceCtorEq, false_or, not_or] at h1 h2
    rcases h1 with hm | rfl
    · obtain ⟨port, p, t, hp, ht, hh⟩ := hs.owned_client h ⟨hm, h2⟩
      exact ⟨port, p, t, by rw [htun]; exact List.mem_cons_of_mem _ hp, hold p t ht, hh⟩
    · exact ⟨localPort, s.next + 3, _, by rw [htun]; exact List.mem_cons_self _ _, hnewp, rfl⟩
  · intro ev hev h hh
    simp only [created, List.nil_append, List.mem_append, List.mem_cons, List.mem_singleton,
      List.not_mem_nil, or_false] at hev
    rcases hev with hm | rfl | rfl | rfl | rfl | rfl
    · exact Nat.lt_of_lt_of_le (hs.fresh_trace ev hm h hh) (by simp [created])
    all_goals
      first
        | (simp only [Event.handles, List.mem_singleton] at hh; subst hh; simp [created])
        | (simp [Event.handles] at hh)
  · intro p t hp
    by_cases hpn : s.next + 3 = p
    · simp [created, ← hpn]
    · have : mget p s.heap = some t := by simpa [created, mget, hpn] using hp
      exact Nat.lt_of_lt_of_le (hs.fresh_heap p t this) (by simp [created])

theorem wellFormed_created (localPort remotePort : Int) (b : BastionConfig) (evs : List Event)
    (s : State) (hs : WellFormed s) (hk : localPort ∉ mkeys s.tunnels)
    (hevs : ∀ ev ∈ evs, ∃ path ok, ev = Event.readFile path ok) :
    WellFormed (created localPort remotePort b evs s) := by
  rw [created_eq]
  exact wellFormed_created_nil localPort remotePort b _ (wellFormed_readFiles s hs evs hevs) hk

theorem wellFormed_createTunnel (env : Env) (localPort remotePort : Int)
    (bastion : Option BastionConfig) (s : State) (hs : WellFormed s) :
    WellFormed (CreateTunnel env localPort remotePort bastion s).2 := by
  rcases createTunnel_cases env localPort remotePort bastion s with
    ⟨_, hc⟩ | ⟨_, _, hc⟩ | ⟨hk, b, evs, _, hevs, hc⟩
  · rw [hc]; exact hs
  · rw [hc]; exact hs
  · have hne : ∀ ev ∈ evs, ev.handles = [] ∧ (∀ a r, ev ≠ Event.listen a r) ∧
        (∀ h, ev ≠ Event.closeListener h) ∧ (∀ h, ev ≠ Event.closeClient h) ∧
        (∀ h, ev ≠ Event.closeChan h) ∧ (∀ a r, ev ≠ Event.dial a r) := by
      intro ev hev
      obtain ⟨path, ok, rfl⟩ := hevs ev hev
      simp [Event.handles]
    rcases hc with ⟨e1, _, hc⟩ | hc | hc | hc
    · rw [hc]
      exact wellFormed_readFiles s hs evs hevs
    · rw [hc]
      refine wellFormed_extend s hs s.next _ (Nat.le_refl _) ?_ ?_ ?_ ?_ ?_ ?_
      · intro ev hev h hh
        rcases List.mem_append.1 hev with hm | hm
        · rw [(hne ev hm).1] at hh
          simp at hh
        · simp only [List.mem_singleton] at hm
          subst hm
          simp [Event.handles] at hh
      · intro a h hm
        rcases List.mem_append.1 hm with hm | hm
        · exact (hne _ hm).2.1 a _ rfl
        · simp at hm
      · intro h hm
        rcases List.mem_append.1 hm with hm | hm
        · exact absurd rfl ((hne _ hm).2.2.1 h)
        · simp at hm
      · intro h hm
        rcases List.mem_append.1 hm with hm | hm
        · exact absurd rfl ((hne _ hm).2.2.2.1 h)
        · simp at hm
      · intro h hm
        rcases List.mem_append.1 hm with hm | hm
        · exact absurd rfl ((hne _ hm).2.2.2.2.1 h)
        · simp at hm
      · intro h hm
        simp only [dialed_append, List.mem_append] at hm
        rcases hm with hm | hm
        · obtain ⟨a, ha⟩ := (mem_dialed h evs).1 hm
          exact absurd rfl ((hne _ ha).2.2.2.2.2 a (some h))
        · simp [dialed] at hm
    · rw [hc]
      refine wellFormed_extend s hs (s.next + 1) _ (Nat.le_succ _) ?_ ?_ ?_ ?_ ?_ ?_
      · intro ev hev h hh
        rcases List.mem_append.1 hev with hm | hm
        · rw [(hne ev hm).1] at hh
          simp at hh
        · simp only [List.mem_cons, List.mem_singleton, List.not_mem_nil, or_false] at hm
          rcases hm with rfl | rfl | rfl
          · simp only [Event.handles, List.mem_singleton] at hh
            subst hh
            exact Nat.lt_succ_self _
          · simp [Event.handles] at hh
          · simp only [Event.handles, List.mem_singleton] at hh
            subst hh
            exact Nat.lt_succ_self _
      · intro a h hm
        rcases List.mem_append.1 hm with hm | hm
        · exact (hne _ hm).2.1 a _ rfl
        · simp at hm
      · intro h hm
        rcases List.mem_append.1 hm with hm | hm
        · exact absurd rfl ((hne _ hm).2.2.1 h)
        · simp at hm
      · intro h hm
        rcases List.mem_append.1 hm with hm | hm
        · exact absurd rfl ((hne _ hm).2.2.2.1 h)
        · simp only [List.mem_cons, List.mem_singleton, List.not_mem_nil, or_false,
            reduceCtorEq, false_or, Event.closeClient.injEq] at hm
          exact Nat.le_of_eq hm.symm
      · intro h hm
        rcases List.mem_append.1 hm with hm | hm
        · exact absurd rfl ((hne _ hm).2.2.2.2.1 h)
        · simp at hm
      · intro h hm
        simp only [dialed_append, List.mem_append] at hm
        rcases hm with hm | hm
        · obtain ⟨a, ha⟩ := (mem_dialed h evs).1 hm
          exact absurd rfl ((hne _ ha).2.2.2.2.2 a (some h))
        · simp only [dialed, List.mem_singleton] at hm
          subst hm
          simp
    · rw [hc]
      exact wellFormed_created localPort remotePort b evs s hs hk hevs

theorem mget_entry (s : State) (hs : WellFormed s) (port : Int) (p : Ptr)
    (hp : (port, p) ∈ s.tunnels) : mget port s.tunnels = some p :=
  mget_of_mem port p s.tunnels hs.keys_nodup hp

theorem entry_unique (s : State) (hs : WellFormed s) (port : Int) (p p' : Ptr)
    (hp : (port, p) ∈ s.tunnels) (hp' : (port, p') ∈ s.tunnels) : p = p' := by
  have h1 := mget_entry s hs port p hp
  have h2 := mget_entry s hs port p' hp'
  rw [h1] at h2
  exact Option.some.inj h2

theorem closeAndDelete_eq (s : State) (hs : WellFormed s) (port : Int) (p : Ptr) (t : Tunnel)
    (hp : (port, p) ∈ s.tunnels) (ht : mget p s.heap = some t) :
    closeAndDelete port t s = some (closed port t s) := by
  obtain ⟨t0, ht0, _, _, _, hd⟩ := hs.registered port p hp
  have e : t = t0 := by rw [ht] at ht0; exact Option.some.inj ht0
  rw [← e] at hd
  simp [closeAndDelete, closed, emit, hd.2]

theorem wellFormed_closed (s : State) (hs : WellFormed s) (port : Int) (p : Ptr) (t : Tunnel)
    (hp : (port, p) ∈ s.tunnels) (ht : mget p s.heap = some t) :
    WellFormed (closed port t s) := by
  obtain ⟨t0, ht0, _, hl, hc, hd⟩ := hs.registered port p hp
  have e : t = t0 := by rw [ht] at ht0; exact Option.some.inj ht0
  rw [← e] at hl hc hd
  -- entries that stay are entries of `s` under another key, sharing nothing with `t`
  have hstay : ∀ port' p', (port', p') ∈ (closed port t s).tunnels →
      (port', p') ∈ s.tunnels ∧ port' ≠ port := by
    intro port' p' h
    simpa [closed] using (mem_mdelete port s.tunnels (port', p')).1 h
  have hdiff : ∀ port' p' t', (port', p') ∈ s.tunnels → port' ≠ port →
      mget p' s.heap = some t' →
      t'.listener ≠ t.listener ∧ t'.client ≠ t.client ∧ t'.done ≠ t.done := by
    intro port' p' t' hp' hne ht'
    refine ⟨fun h => hne ?_, fun h => hne ?_, fun h => hne ?_⟩
    · exact hs.unshared port' p' t' port p t hp' ht' hp ht (Or.inl h)
    · exact hs.unshared port' p' t' port p t hp' ht' hp ht (Or.inr (Or.inl h))
    · exact hs.unshared port' p' t' port p t hp' ht' hp ht (Or.inr (Or.inr h))
  refine ⟨?_, ?_, ?_, ?_, ?_, ?_, ?_⟩
  · exact mkeys_mdelete_nodup port s.tunnels hs.keys_nodup
  · intro port' p' hp'
    obtain ⟨hin, hne⟩ := hstay port' p' hp'
    obtain ⟨t', ht', hport, hl', hc', hd'⟩ := hs.registered port' p' hin
    obtain ⟨d1, d2, d3⟩ := hdiff port' p' t' hin hne ht'
    refine ⟨t', ht', hport, ⟨?_, ?_⟩, ⟨?_, ?_⟩, ⟨?_, ?_⟩⟩
    · simp [closed, hl'.1]
    · simpa [closed, d1] using hl'.2
    · simp [closed, dialed_append, hc'.1]
    · simpa [closed, d2] using hc'.2
    · simp [closed, hd'.1]
    · simpa [closed, d3] using hd'.2
  · intro port1 p1 t1 port2 p2 t2 h1 g1 h2 g2 hshare
    exact hs.unshared port1 p1 t1 port2 p2 t2 (hstay _ _ h1).1 g1 (hstay _ _ h2).1 g2 hshare
  · intro h port' ho
    have h1 := ho.1
    have h2 := ho.2
    simp only [closed, List.mem_append, List.mem_cons, List.mem_singleton, List.not_mem_nil,
      or_false, reduceCtorEq, false_or, Event.closeListener.injEq, not_or] at h1 h2
    obtain ⟨p', t', hp', ht', hh⟩ := hs.owned_listener h port' ⟨h1, h2.1⟩
    refine ⟨p', t', ?_, ht', hh⟩
    have hne : port' ≠ port := by
      rintro rfl
      have := entry_unique s hs port' p p' hp hp'
      subst this
      rw [ht] at ht'
      obtain rfl := Option.some.inj ht'
      exact h2.2 hh.symm
    simpa [closed] using (mem_mdelete port s.tunnels (port', p')).2 ⟨hp', hne⟩
  · intro h ho
    have h1 := ho.1
    have h2 := ho.2
    simp only [closed, dialed_append, dialed, List.append_nil, List.mem_append, List.mem_cons,
      List.mem_singleton, List.not_mem_nil, or_false, reduceCtorEq, false_or,
      Event.closeClient.injEq, not_or] at h1 h2
    obtain ⟨port', p', t', hp', ht', hh⟩ := hs.owned_client h ⟨h1, h2.1⟩
    refine ⟨port', p', t', ?_, ht', hh⟩
    have hne : port' ≠ port := by
      rintro rfl
      have := entry_unique s hs port' p p' hp hp'
      subst this
      rw [ht] at ht'
      obtain rfl := Option.some.inj ht'
      exact h2.2 hh.symm
    simpa [closed] using (mem_mdelete port s.tunnels (port', p')).2 ⟨hp', hne⟩
  · intro ev hev h hh
    simp only [closed, List.mem_append, List.mem_cons, List.mem_singleton, List.not_mem_nil,
      or_false] at hev
    rcases hev with hm | rfl | rfl | rfl | rfl
    · exact hs.fresh_trace ev hm h hh
    · simp only [Event.handles, List.mem_singleton] at hh
      subst hh
      exact chanOpen_lt s hs _ hd
    · simp only [Event.handles, List.mem_singleton] at hh
      subst hh
      exact listenerOpen_lt s hs _ _ hl
    · simp only [Event.handles, List.mem_singleton] at hh
      subst hh
      exact clientOpen_lt s hs _ hc
    · simp [Event.handles] at hh
  · exact hs.fresh_heap

theorem closeTunnel_eq (s : State) (hs : WellFormed s) (port : Int) (p : Ptr) (t : Tunnel)
    (hp : (port, p) ∈ s.tunnels) (ht : mget p s.heap = some t) :
    CloseTunnel port s = (.nil, closed port t s) := by
  simp [CloseTunnel, mget_entry s hs port p hp, ht, closeAndDelete_eq s hs port p t hp ht]

theorem wellFormed_closeTunnel (localPort : Int) (s : State) (hs : WellFormed s) :
    WellFormed (CloseTunnel localPort s).2 := by
  by_cases hk : localPort ∈ mkeys s.tunnels
  · obtain ⟨p, hp⟩ := Option.isSome_iff_exists.1 ((mget_isSome_iff localPort s.tunnels).2 hk)
    have hmem := mem_of_mget localPort p s.tunnels hp
    obtain ⟨t, ht, _⟩ := hs.registered localPort p hmem
    rw [closeTunnel_eq s hs localPort p t hmem ht]
    exact wellFormed_closed s hs localPort p t hmem ht
  · rw [closeTunnel_of_absent localPort s hk]
    exact hs

theorem closeAllLoop_eq : ∀ (m : List (Int × Ptr)) (s : State), WellFormed s →
    m.Perm s.tunnels →
    closeAllLoop m s = (.nil, closedAll m s) ∧ WellFormed (closedAll m s) := by
  intro m
  induction m with
  | nil =>
    intro s hs hm
    have hnil : s.tunnels = [] := hm.symm.eq_nil
    have : closedAll [] s = s := by
      cases s
      simp only [closedAll, closeAllEvents, List.append_nil] at hnil ⊢
      simp [hnil]
    rw [this]
    exact ⟨rfl, hs⟩
  | cons e rest ih =>
    intro s hs hm
    obtain ⟨port, p⟩ := e
    have hp : (port, p) ∈ s.tunnels := hm.subset (List.mem_cons_self _ _)
    obtain ⟨t, ht, _⟩ := hs.registered port p hp
    have hnd : (mkeys ((port, p) :: rest)).Nodup :=
      ((hm.map Prod.fst).nodup_iff).2 hs.keys_nodup
    simp only [mkeys, List.map_cons, List.nodup_cons] at hnd
    have hrest : rest.Perm (closed port t s).tunnels := by
      have h1 : mdelete port rest = rest := mdelete_absent port rest hnd.1
      have h2 : mdelete port ((port, p) :: rest) = rest := by
        simpa [mdelete] using h1
      have h3 := hm.filter (fun e => decide (e.1 ≠ port))
      rw [← h2]
      exact h3
    obtain ⟨h1, h2⟩ := ih (closed port t s) (wellFormed_closed s hs port p t hp ht) hrest
    have hst : closedAll rest (closed port t s) = closedAll ((port, p) :: rest) s := by
      simp [closedAll, closed, closeAllEvents, ht]
    rw [hst] at h1 h2
    refine ⟨?_, h2⟩
    simp only [closeAllLoop, ht, closeAndDelete_eq s hs port p t hp ht]
    exact h1

theorem closeAll_eq (s : State) (hs : WellFormed s) (order : List (Int × Ptr))
    (ho : order.Perm s.tunnels) : CloseAll order s = (.nil, closedAll order s) :=
  (closeAllLoop_eq order s hs ho).1

theorem wellFormed_closeAll (s : State) (hs : WellFormed s) (order : List (Int × Ptr))
    (ho : order.Perm s.tunnels) : WellFormed (CloseAll order s).2 := by
  rw [closeAll_eq s hs order ho]
  exact (closeAllLoop_eq order s hs ho).2

theorem wellFormed_step (s s' : State) (hs : WellFormed s) (hstep : Step s s') :
    WellFormed s' := by
  cases hstep with
  | create env localPort remotePort bastion =>
    exact wellFormed_createTunnel env localPort remotePort bastion s hs
  | close localPort => exact wellFormed_closeTunnel localPort s hs
  | list order _ ho => exact hs
  | closeAll order _ ho => exact wellFormed_closeAll s hs order ho

/-- Every state reached from a new registry by calls of its four methods is
well formed. -/
theorem wellFormed_reachable (s : State) (h : Reachable s) : WellFormed s := by
  induction h with
  | new => exact wellFormed_new
  | step _ hstep ih => exact wellFormed_step _ _ ih hstep

theorem reachable_oneTunnel : Reachable oneTunnel :=
  .step .new (.create envOk 8080 80 (some bastionPw) NewTunnelManager)

theorem reachable_twoTunnels : Reachable twoTunnels :=
  .step reachable_oneTunnel (.create envOk 8081 81 (some bastionPw) oneTunnel)

/-! ## The registry invariant -/

/-- C3: in every state reached from `NewTunnelManager()` by any sequence of
`CreateTunnel`, `CloseTunnel`, `ListTunnels` and `CloseAll` calls, whatever
the outcomes of the external calls and the iteration orders: a port is a key
of the mapping exactly when a listener the registry bound on it is still
open; keys are unique; there is at most one open listener per port; the
tunnel stored under a key carries that key as `LocalPort` and its listener
and client are open; and every open client is the client of the tunnel of
exactly one key. -/
theorem registry_invariant (s : State) (hreach : Reachable s) :
    (∀ port, port ∈ mkeys s.tunnels ↔ ∃ h, listenerOpen s h port) ∧
    (mkeys s.tunnels).Nodup ∧
    (∀ port h h', listenerOpen s h port → listenerOpen s h' port → h = h') ∧
    (∀ port p, mget port s.tunnels = some p →
      ∃ t, mget p s.heap = some t ∧ t.LocalPort = port ∧
        listenerOpen s t.listener port ∧ clientOpen s t.client) ∧
    (∀ h, clientOpen s h →
      ∃! port, ∃ p t, mget port s.tunnels = some p ∧ mget p s.heap = some t ∧ t.client = h) := by
  have hs := wellFormed_reachable s hreach
  have huniq : ∀ port p t p' t', (port, p) ∈ s.tunnels → mget p s.heap = some t →
      (port, p') ∈ s.tunnels → mget p' s.heap = some t' → t = t' := by
    intro port p t p' t' hp ht hp' ht'
    have := entry_unique s hs port p p' hp hp'
    subst this
    rw [ht] at ht'
    exact Option.some.inj ht'
  refine ⟨?_, hs.keys_nodup, ?_, ?_, ?_⟩
  · intro port
    constructor
    · intro hk
      obtain ⟨p, hp⟩ := Option.isSome_iff_exists.1 ((mget_isSome_iff port s.tunnels).2 hk)
      obtain ⟨t, _, _, hl, _⟩ := hs.registered port p (mem_of_mget port p s.tunnels hp)
      exact ⟨t.listener, hl⟩
    · rintro ⟨h, ho⟩
      obtain ⟨p, t, hp, _⟩ := hs.owned_listener h port ho
      exact List.mem_map_of_mem Prod.fst hp
  · intro port h h' ho ho'
    obtain ⟨p, t, hp, ht, hh⟩ := hs.owned_listener h port ho
    obtain ⟨p', t', hp', ht', hh'⟩ := hs.owned_listener h' port ho'
    have := huniq port p t p' t' hp ht hp' ht'
    subst this
    rw [← hh, ← hh']
  · intro port p hp
    obtain ⟨t, ht, hport, hl, hc, _⟩ := hs.registered port p (mem_of_mget port p s.tunnels hp)
    exact ⟨t, ht, hport, hl, hc⟩
  · intro h ho
    obtain ⟨port, p, t, hp, ht, hh⟩ := hs.owned_client h ho
    refine ⟨port, ⟨p, t, mget_entry s hs port p hp, ht, hh⟩, ?_⟩
    rintro port' ⟨p', t', hp', ht', hh'⟩
    exact hs.unshared port' p' t' port p t (mem_of_mget port' p' s.tunnels hp') ht' hp ht
      (Or.inr (Or.inl (hh'.trans hh.symm)))

theorem registry_invariant_witness :
    (∀ port, port ∈ mkeys twoTunnels.tunnels ↔ ∃ h, listenerOpen twoTunnels h port) ∧
    (mkeys twoTunnels.tunnels).Nodup ∧
    (∀ port h h', listenerOpen twoTunnels h port → listenerOpen twoTunnels h' port → h = h') ∧
    (∀ port p, mget port twoTunnels.tunnels = some p →
      ∃ t, mget p twoTunnels.heap = some t ∧ t.LocalPort = port ∧
        listenerOpen twoTunnels t.listener port ∧ clientOpen twoTunnels t.client) ∧
    (∀ h, clientOpen twoTunnels h →
      ∃! port, ∃ p t, mget port twoTunnels.tunnels = some p ∧
        mget p twoTunnels.heap = some t ∧ t.client = h) :=
  registry_invariant twoTunnels reachable_twoTunnels

/-! ## Closing and reusing a port -/

theorem listTunnels_foldl (m : List (Int × Ptr)) :
    ∀ acc : List Ptr, m.foldl (fun tunnels e => tunnels ++ [e.2]) acc = acc ++ m.map Prod.snd := by
  induction m with
  | nil => simp
  | cons e m ih =>
    intro acc
    simp [List.foldl_cons, ih]

theorem listTunnels_eq (order : List (Int × Ptr)) (s : State) :
    ListTunnels order s = (order.map Prod.snd, s) := by
  simp [ListTunnels, listTunnels_foldl]

theorem createTunnel_succeeds (env : Env) (localPort remotePort : Int) (b : BastionConfig)
    (s : State) (hk : localPort ∉ mkeys s.tunnels) (henv : env.allSucceed localPort b) :
    (CreateTunnel env localPort remotePort (some b) s).1 = .nil := by
  have hn : mget localPort s.tunnels = none := (mget_eq_none_iff _ _).2 hk
  obtain ⟨hd, hl, hkey⟩ := henv
  by_cases ha : b.AuthType = "key"
  · obtain ⟨key, signer, h1, h2⟩ := hkey ha
    simp [CreateTunnel, hn, setupAuth, ha, h1, h2, hd, hl]
  · simp [CreateTunnel, hn, setupAuth, ha, hd, hl]

theorem createTunnel_not_exists (env : Env) (localPort remotePort : Int)
    (bastion : Option BastionConfig) (s : State) (hk : localPort ∉ mkeys s.tunnels) (q : Int) :
    (CreateTunnel env localPort remotePort bastion s).1 ≠ .err (.tunnelAlreadyExists q) := by
  rcases createTunnel_cases env localPort remotePort bastion s with
    ⟨hk', _⟩ | ⟨_, _, hc⟩ | ⟨_, b, evs, _, _, hc⟩
  · exact absurd hk' hk
  · rw [hc]; simp
  · rcases hc with ⟨e1, he1, hc⟩ | hc | hc | hc
    · rw [hc]
      rcases he1 with rfl | rfl <;> simp
    · rw [hc]; simp
    · rw [hc]; simp
    · rw [hc]; simp

/-- C4: from a well-formed registry, if `CreateTunnel` on port `p` succeeds,
then `CloseTunnel(p)` succeeds; in the state it leaves `p` is not a key, no
tunnel returned by `ListTunnels` has `LocalPort = p` whatever the iteration
order, no later `CreateTunnel` on `p` is rejected as already existing, and a
later `CreateTunnel` on `p` succeeds whenever its external calls succeed. -/
theorem close_then_reuse (env : Env) (localPort remotePort : Int)
    (bastion : Option BastionConfig) (s s1 : State) (hs : WellFormed s)
    (hc : CreateTunnel env localPort remotePort bastion s = (.nil, s1)) :
    ∃ s2, CloseTunnel localPort s1 = (.nil, s2) ∧
      localPort ∉ mkeys s2.tunnels ∧
      (∀ order, order.Perm s2.tunnels → ∀ p ∈ (ListTunnels order s2).1,
        ∀ t, mget p s2.heap = some t → t.LocalPort ≠ localPort) ∧
      (∀ env' remotePort' bastion',
        (CreateTunnel env' localPort remotePort' bastion' s2).1
          ≠ .err (.tunnelAlreadyExists localPort)) ∧
      (∀ env' remotePort' b', env'.allSucceed localPort b' →
        (CreateTunnel env' localPort remotePort' (some b') s2).1 = .nil) := by
  have hs1 : WellFormed s1 := by
    have := wellFormed_createTunnel env localPort remotePort bastion s hs
    rwa [hc] at this
  have hmem : localPort ∈ mkeys s1.tunnels := by
    rcases createTunnel_cases env localPort remotePort bastion s with
      ⟨_, h⟩ | ⟨_, _, h⟩ | ⟨_, b, evs, _, _, h⟩
    · rw [h] at hc; simp at hc
    · rw [h] at hc; simp at hc
    · rcases h with ⟨e1, _, h⟩ | h | h | h
      · rw [h] at hc; simp at hc
      · rw [h] at hc; simp at hc
      · rw [h] at hc; simp at hc
      · rw [h] at hc
        simp only [Prod.mk.injEq, true_and] at hc
        subst hc
        simp [created, mset, mkeys]
  obtain ⟨p, hp⟩ := Option.isSome_iff_exists.1 ((mget_isSome_iff localPort s1.tunnels).2 hmem)
  have hin := mem_of_mget localPort p s1.tunnels hp
  obtain ⟨t, ht, _⟩ := hs1.registered localPort p hin
  have habs : localPort ∉ mkeys (closed localPort t s1).tunnels := by
    intro hm
    obtain ⟨e, he, hfst⟩ := List.mem_map.1 hm
    exact ((mem_mdelete localPort s1.tunnels e).1 he).2 hfst
  refine ⟨closed localPort t s1, closeTunnel_eq s1 hs1 localPort p t hin ht, habs, ?_, ?_, ?_⟩
  · intro order ho q hq t' ht' hport
    rw [listTunnels_eq] at hq
    obtain ⟨e, he, hsnd⟩ := List.mem_map.1 hq
    obtain ⟨hes, hne⟩ := (mem_mdelete localPort s1.tunnels e).1 (ho.subset he)
    obtain ⟨t0, ht0, hport0, _⟩ := hs1.registered e.1 e.2 hes
    rw [hsnd] at ht0
    have e0 : t' = t0 := by
      have : mget q s1.heap = some t' := ht'
      rw [this] at ht0
      exact Option.some.inj ht0
    rw [e0, hport0] at hport
    exact hne hport
  · intro env' remotePort' bastion'
    exact createTunnel_not_exists env' localPort remotePort' bastion' _ habs localPort
  · intro env' remotePort' b' henv
    exact createTunnel_succeeds env' localPort remotePort' b' _ habs henv

theorem close_then_reuse_witness :
    CreateTunnel envOk 8080 80 (some bastionPw) NewTunnelManager = (.nil, oneTunnel) ∧
    ∃ s2, CloseTunnel 8080 oneTunnel = (.nil, s2) ∧
      (8080 : Int) ∉ mkeys s2.tunnels ∧
      (∀ order, order.Perm s2.tunnels → ∀ p ∈ (ListTunnels order s2).1,
        ∀ t, mget p s2.heap = some t → t.LocalPort ≠ 8080) ∧
      (∀ env' remotePort' bastion',
        (CreateTunnel env' 8080 remotePort' bastion' s2).1
          ≠ .err (.tunnelAlreadyExists 8080)) ∧
      (∀ env' remotePort' b', env'.allSucceed 8080 b' →
        (CreateTunnel env' 8080 remotePort' (some b') s2).1 = .nil) :=
  ⟨rfl, close_then_reuse envOk 8080 80 (some bastionPw) NewTunnelManager oneTunnel
    wellFormed_new rfl⟩

/-! ## CloseAll -/

theorem closeAllEvents_length (s : State) (hs : WellFormed s) :
    ∀ m : List (Int × Ptr), (∀ e ∈ m, e ∈ s.tunnels) →
      (closeAllEvents s.heap m).length = 4 * m.length := by
  intro m
  induction m with
  | nil => intro _; rfl
  | cons e m ih =>
    intro hm
    obtain ⟨port, p⟩ := e
    obtain ⟨t, ht, _⟩ := hs.registered port p (hm _ (List.mem_cons_self _ _))
    have := ih (fun e he => hm e (List.mem_cons_of_mem _ he))
    simp only [closeAllEvents, ht, List.length_append, List.length_cons, List.length_nil, this]
    omega

theorem closeAllEvents_owner (heap : List (Ptr × Tunnel)) :
    ∀ (m : List (Int × Ptr)) (ev : Event), ev ∈ closeAllEvents heap m →
      ∃ port p t, (port, p) ∈ m ∧ mget p heap = some t ∧
        ev ∈ [Event.closeChan t.done, .closeListener t.listener, .closeClient t.client,
          .delete port] := by
  intro m
  induction m with
  | nil => intro ev hev; simp [closeAllEvents] at hev
  | cons e m ih =>
    intro ev hev
    obtain ⟨port, p⟩ := e
    simp only [closeAllEvents] at hev
    split at hev
    · simp at hev
    · rename_i t ht
      rcases List.mem_append.1 hev with h | h
      · exact ⟨port, p, t, List.mem_cons_self _ _, ht, h⟩
      · obtain ⟨port', p', t', hp', ht', h'⟩ := ih ev h
        exact ⟨port', p', t', List.mem_cons_of_mem _ hp', ht', h'⟩

theorem closeAllEvents_mem (s : State) (hs : WellFormed s) :
    ∀ (m : List (Int × Ptr)), (∀ e ∈ m, e ∈ s.tunnels) →
      ∀ port p t, (port, p) ∈ m → mget p s.heap = some t →
        ∀ ev ∈ [Event.closeChan t.done, .closeListener t.listener, .closeClient t.client,
          .delete port], ev ∈ closeAllEvents s.heap m := by
  intro m
  induction m with
  | nil => intro _ port p t hp; simp at hp
  | cons e m ih =>
    intro hm port p t hp ht ev hev
    obtain ⟨port0, p0⟩ := e
    obtain ⟨t0, ht0, _⟩ := hs.registered port0 p0 (hm _ (List.mem_cons_self _ _))
    simp only [closeAllEvents, ht0]
    rcases List.mem_cons.1 hp with heq | hp'
    · simp only [Prod.mk.injEq] at heq
      obtain ⟨rfl, rfl⟩ := heq
      rw [ht] at ht0
      obtain rfl := Option.some.inj ht0
      exact List.mem_append_left _ hev
    · exact List.mem_append_right _
        (ih (fun e he => hm e (List.mem_cons_of_mem _ he)) port p t hp' ht ev hev)

theorem closeAllEvents_nodup (s : State) (hs : WellFormed s) :
    ∀ (m : List (Int × Ptr)), (∀ e ∈ m, e ∈ s.tunnels) → (mkeys m).Nodup →
      (closeAllEvents s.heap m).Nodup := by
  intro m
  induction m with
  | nil => intro _ _; simp [closeAllEvents]
  | cons e m ih =>
    intro hm hnd
    obtain ⟨port, p⟩ := e
    have hp := hm _ (List.mem_cons_self _ _)
    obtain ⟨t, ht, _⟩ := hs.registered port p hp
    simp only [mkeys, List.map_cons, List.nodup_cons] at hnd
    have hrest := ih (fun e he => hm e (List.mem_cons_of_mem _ he)) hnd.2
    simp only [closeAllEvents, ht]
    refine List.Nodup.append (by simp) hrest ?_
    intro ev h1 h2
    obtain ⟨port', p', t', hp', ht', h'⟩ := closeAllEvents_owner s.heap m ev h2
    have hne : port' ≠ port := by
      rintro rfl
      exact hnd.1 (List.mem_map_of_mem Prod.fst hp')
    have hin' := hm _ (List.mem_cons_of_mem _ hp')
    simp only [List.mem_cons, List.mem_singleton, List.not_mem_nil, or_false] at h1 h'
    rcases h1 with rfl | rfl | rfl | rfl <;>
      simp only [Event.closeChan.injEq, Event.closeListener.injEq, Event.closeClient.injEq,
        Event.delete.injEq, reduceCtorEq, false_or, or_false] at h'
    · exact hne (hs.unshared port' p' t' port p t hin' ht' hp ht (Or.inr (Or.inr h'.symm)))
    · exact hne (hs.unshared port' p' t' port p t hin' ht' hp ht (Or.inl h'.symm))
    · exact hne (hs.unshared port' p' t' port p t hin' ht' hp ht (Or.inr (Or.inl h'.symm)))
    · exact hne h'.symm

/-- C6: on a well-formed registry with any number of tunnels and for every
iteration order, `CloseAll` returns without panic and leaves the mapping
empty, so `ListTunnels` then returns an empty sequence; its effects are four
per registered tunnel, and among them the close of the `done` channel, of
the listener and of the client of each registered tunnel occurs exactly
once. A second `CloseAll` returns without panic and changes nothing, and so
does `CloseAll` on any registry whose mapping is empty: no close is
performed. -/
theorem closeAll_once_and_idempotent (s : State) (hs : WellFormed s)
    (order : List (Int × Ptr)) (ho : order.Perm s.tunnels) :
    ∃ evs, CloseAll order s = (.nil, { s with tunnels := [], trace := s.trace ++ evs }) ∧
      (∀ order', order'.Perm (CloseAll order s).2.tunnels →
        (ListTunnels order' (CloseAll order s).2).1 = []) ∧
      evs.length = 4 * s.tunnels.length ∧
      (∀ port p t, mget port s.tunnels = some p → mget p s.heap = some t →
        evs.count (.closeChan t.done) = 1 ∧ evs.count (.closeListener t.listener) = 1 ∧
        evs.count (.closeClient t.client) = 1 ∧ evs.count (.delete port) = 1) ∧
      (∀ order', order'.Perm (CloseAll order s).2.tunnels →
        CloseAll order' (CloseAll order s).2 = (.nil, (CloseAll order s).2)) ∧
      (∀ (s0 : State) (order0 : List (Int × Ptr)), s0.tunnels = [] →
        order0.Perm s0.tunnels → CloseAll order0 s0 = (.nil, s0)) := by
  have hempty : ∀ (s0 : State) (order0 : List (Int × Ptr)), s0.tunnels = [] →
      order0.Perm s0.tunnels → CloseAll order0 s0 = (.nil, s0) := by
    intro s0 order0 h0 hp0
    rw [h0] at hp0
    simp [CloseAll, hp0.eq_nil, closeAllLoop]
  have hsub : ∀ e ∈ order, e ∈ s.tunnels := fun e he => ho.subset he
  have hnd : (mkeys order).Nodup := ((ho.map Prod.fst).nodup_iff).2 hs.keys_nodup
  have hafter : (CloseAll order s).2.tunnels = [] := by
    rw [closeAll_eq s hs order ho]
    rfl
  refine ⟨closeAllEvents s.heap order, closeAll_eq s hs order ho, ?_, ?_, ?_, ?_, hempty⟩
  · intro order' ho'
    rw [hafter] at ho'
    rw [listTunnels_eq, ho'.eq_nil]
    rfl
  · rw [closeAllEvents_length s hs order hsub, ho.length_eq]
  · intro port p t hp ht
    have hnd' := closeAllEvents_nodup s hs order hsub hnd
    have hmem := closeAllEvents_mem s hs order hsub port p t
      (ho.symm.subset (mem_of_mget port p s.tunnels hp)) ht
    refine ⟨?_, ?_, ?_, ?_⟩ <;> apply List.count_eq_one_of_mem hnd' <;> apply hmem <;> simp
  · intro order' ho'
    exact hempty _ order' hafter ho'

theorem closeAll_once_and_idempotent_witness :
    ∃ evs, CloseAll [(8080, 3), (8081, 7)] twoTunnels
        = (.nil, { twoTunnels with tunnels := [], trace := twoTunnels.trace ++ evs }) ∧
      (∀ order', order'.Perm (CloseAll [(8080, 3), (8081, 7)] twoTunnels).2.tunnels →
        (ListTunnels order' (CloseAll [(8080, 3), (8081, 7)] twoTunnels).2).1 = []) ∧
      evs.length = 4 * twoTunnels.tunnels.length ∧
      (∀ port p t, mget port twoTunnels.tunnels = some p → mget p twoTunnels.heap = some t →
        evs.count (.closeChan t.done) = 1 ∧ evs.count (.closeListener t.listener) = 1 ∧
        evs.count (.closeClient t.client) = 1 ∧ evs.count (.delete port) = 1) ∧
      (∀ order', order'.Perm (CloseAll [(8080, 3), (8081, 7)] twoTunnels).2.tunnels →
        CloseAll order' (CloseAll [(8080, 3), (8081, 7)] twoTunnels).2
          = (.nil, (CloseAll [(8080, 3), (8081, 7)] twoTunnels).2)) ∧
      (∀ (s0 : State) (order0 : List (Int × Ptr)), s0.tunnels = [] →
        order0.Perm s0.tunnels → CloseAll order0 s0 = (.nil, s0)) :=
  closeAll_once_and_idempotent twoTunnels (wellFormed_reachable _ reachable_twoTunnels)
    [(8080, 3), (8081, 7)] (by decide)

/-! ## ListTunnels -/

theorem mget_mdelete_ne {κ ν : Type} [DecidableEq κ] (k k' : κ) (m : List (κ × ν))
    (h : k ≠ k') : mget k (mdelete k' m) = mget k m := by
  induction m with
  | nil => rfl
  | cons e m ih =>
    obtain ⟨k0, v0⟩ := e
    by_cases h0 : k0 = k'
    · have h1 : ¬ k0 = k := fun h2 => h (h2.symm.trans h0)
      have h2 : mdelete k' ((k0, v0) :: m) = mdelete k' m := by simp [mdelete, h0]
      rw [h2, ih]
      simp [mget, h1]
    · have h2 : mdelete k' ((k0, v0) :: m) = (k0, v0) :: mdelete k' m := by simp [mdelete, h0]
      rw [h2]
      by_cases h1 : k0 = k
      · simp [mget, h1]
      · simp only [mget, h1, if_false]
        exact ih

theorem entry_step (s s' : State) (hs : WellFormed s) (hstep : Step s s') (port : Int) (p : Ptr)
    (hp : mget port s.tunnels = some p) :
    mget port s'.tunnels = some p ∨ port ∉ mkeys s'.tunnels := by
  have hin : port ∈ mkeys s.tunnels :=
    (mget_isSome_iff port s.tunnels).1 (by rw [hp]; rfl)
  cases hstep with
  | create env localPort remotePort bastion =>
    rcases createTunnel_cases env localPort remotePort bastion s with
      ⟨_, hc⟩ | ⟨_, _, hc⟩ | ⟨hk, b, evs, _, _, hc⟩
    · rw [hc]; exact Or.inl hp
    · rw [hc]; exact Or.inl hp
    · rcases hc with ⟨e1, _, hc⟩ | hc | hc | hc
      · rw [hc]; exact Or.inl hp
      · rw [hc]; exact Or.inl hp
      · rw [hc]; exact Or.inl hp
      · rw [hc]
        have hne : ¬ localPort = port := fun h => hk (h ▸ hin)
        left
        simpa [created, mset, mget, hne, mdelete_absent localPort s.tunnels hk] using hp
  | close localPort =>
    by_cases hk : localPort ∈ mkeys s.tunnels
    · obtain ⟨q, hq⟩ := Option.isSome_iff_exists.1 ((mget_isSome_iff localPort s.tunnels).2 hk)
      have hmem := mem_of_mget localPort q s.tunnels hq
      obtain ⟨t', ht', _⟩ := hs.registered localPort q hmem
      rw [closeTunnel_eq s hs localPort q t' hmem ht']
      by_cases hpl : port = localPort
      · right
        intro hm
        obtain ⟨e, he, hfst⟩ := List.mem_map.1 hm
        exact ((mem_mdelete localPort s.tunnels e).1 he).2 (hfst.trans hpl)
      · left
        simpa [closed] using (mget_mdelete_ne port localPort s.tunnels hpl).trans hp
    · rw [closeTunnel_of_absent localPort s hk]
      exact Or.inl hp
  | list order _ ho => exact Or.inl hp
  | closeAll order _ ho =>
    rw [closeAll_eq s hs order ho]
    right
    simp [closedAll, mkeys]

theorem heap_step (s s' : State) (hs : WellFormed s) (hstep : Step s s') (p : Ptr) (t : Tunnel)
    (hp : mget p s.heap = some t) : mget p s'.heap = some t := by
  cases hstep with
  | create env localPort remotePort bastion =>
    rcases createTunnel_cases env localPort remotePort bastion s with
      ⟨_, hc⟩ | ⟨_, _, hc⟩ | ⟨_, b, evs, _, _, hc⟩
    · rw [hc]; exact hp
    · rw [hc]; exact hp
    · rcases hc with ⟨e1, _, hc⟩ | hc | hc | hc
      · rw [hc]; exact hp
      · rw [hc]; exact hp
      · rw [hc]; exact hp
      · rw [hc]
        have hlt : (p : Nat) < s.next := hs.fresh_heap p t hp
        have hne : ¬ s.next + 3 = p := by
          intro h
          subst h
          exact Nat.lt_irrefl _ (Nat.lt_of_le_of_lt (Nat.le_add_right _ 3) hlt)
        simpa [created, mget, hne] using hp
  | close localPort =>
    by_cases hk : localPort ∈ mkeys s.tunnels
    · obtain ⟨q, hq⟩ := Option.isSome_iff_exists.1 ((mget_isSome_iff localPort s.tunnels).2 hk)
      have hmem := mem_of_mget localPort q s.tunnels hq
      obtain ⟨t', ht', _⟩ := hs.registered localPort q hmem
      rw [closeTunnel_eq s hs localPort q t' hmem ht']
      exact hp
    · rw [closeTunnel_of_absent localPort s hk]
      exact hp
  | list order _ ho => exact hp
  | closeAll order _ ho =>
    rw [closeAll_eq s hs order ho]
    exact hp

/-- C8, as the code has it: on a well-formed registry and for every
iteration order, `ListTunnels` leaves the state unchanged and returns a new
sequence with one element per entry of the mapping: its length is the size
of the mapping and the local ports of its elements are, up to order, exactly
the keys, which are pairwise distinct. Its elements are the pointers stored
in the mapping, that is the live `Tunnel` values and not copies. A tunnel
just created with remote port `r` appears in the sequence with that remote
port; no registry call changes the fields of a tunnel once it is allocated,
and a key keeps its pointer until it is deleted. -/
theorem listTunnels_snapshot (s : State) (hs : WellFormed s) (order : List (Int × Ptr))
    (ho : order.Perm s.tunnels) :
    (ListTunnels order s).2 = s ∧
    (ListTunnels order s).1.length = s.tunnels.length ∧
    ((ListTunnels order s).1.map (fun p => (mget p s.heap).map Tunnel.LocalPort)).Perm
      ((mkeys s.tunnels).map some) ∧
    (mkeys s.tunnels).Nodup ∧
    (ListTunnels order s).1 = order.map Prod.snd ∧
    (∀ p, p ∈ (ListTunnels order s).1 ↔ ∃ port, mget port s.tunnels = some p) ∧
    (∀ env localPort remotePort bastion s1,
      CreateTunnel env localPort remotePort bastion s = (.nil, s1) →
      ∀ order1, order1.Perm s1.tunnels →
      ∃ p ∈ (ListTunnels order1 s1).1, ∃ t, mget p s1.heap = some t ∧
        t.LocalPort = localPort ∧ t.RemotePort = remotePort) ∧
    (∀ s' p t, Step s s' → mget p s.heap = some t → mget p s'.heap = some t) ∧
    (∀ s' port p, Step s s' → mget port s.tunnels = some p →
      mget port s'.tunnels = some p ∨ port ∉ mkeys s'.tunnels) := by
  refine ⟨by rw [listTunnels_eq], by simp [listTunnels_eq, ho.length_eq], ?_, hs.keys_nodup,
    by rw [listTunnels_eq], ?_, ?_, fun s' p t hstep hp => heap_step s s' hs hstep p t hp,
    fun s' port p hstep hp => entry_step s s' hs hstep port p hp⟩
  · rw [listTunnels_eq]
    have h1 : (order.map Prod.snd).map (fun p => (mget p s.heap).map Tunnel.LocalPort)
        = (mkeys order).map some := by
      simp only [mkeys, List.map_map]
      apply List.map_congr_left
      intro e he
      obtain ⟨t, ht, hport, _⟩ := hs.registered e.1 e.2 (ho.subset he)
      simp [ht, hport]
    rw [h1]
    exact (ho.map Prod.fst).map some
  · intro p
    rw [listTunnels_eq]
    constructor
    · intro hp
      obtain ⟨e, he, hsnd⟩ := List.mem_map.1 hp
      exact ⟨e.1, by rw [← hsnd]; exact mget_entry s hs e.1 e.2 (ho.subset he)⟩
    · rintro ⟨port, hport⟩
      exact List.mem_map.2 ⟨(port, p), ho.symm.subset (mem_of_mget port p s.tunnels hport), rfl⟩
  · intro env localPort remotePort bastion s1 hc order1 ho1
    rcases createTunnel_cases env localPort remotePort bastion s with
      ⟨_, h⟩ | ⟨_, _, h⟩ | ⟨_, b, evs, _, _, h⟩
    · rw [h] at hc; simp at hc
    · rw [h] at hc; simp at hc
    · rcases h with ⟨e1, _, h⟩ | h | h | h
      · rw [h] at hc; simp at hc
      · rw [h] at hc; simp at hc
      · rw [h] at hc; simp at hc
      · rw [h] at hc
        simp only [Prod.mk.injEq, true_and] at hc
        subst hc
        refine ⟨s.next + 3, ?_, newTunnel localPort remotePort b s.next, ?_, rfl, rfl⟩
        · rw [listTunnels_eq]
          exact List.mem_map.2 ⟨(localPort, s.next + 3),
            ho1.symm.subset (by simp [created, mset]), rfl⟩
        · simp [created, mget]

theorem listTunnels_snapshot_witness :
    (ListTunnels [(8080, 3), (8081, 7)] twoTunnels).2 = twoTunnels ∧
    (ListTunnels [(8080, 3), (8081, 7)] twoTunnels).1.length = twoTunnels.tunnels.length ∧
    ((ListTunnels [(8080, 3), (8081, 7)] twoTunnels).1.map
      (fun p => (mget p twoTunnels.heap).map Tunnel.LocalPort)).Perm
      ((mkeys twoTunnels.tunnels).map some) ∧
    (mkeys twoTunnels.tunnels).Nodup ∧
    (ListTunnels [(8080, 3), (8081, 7)] twoTunnels).1
      = [((8080 : Int), (3 : Ptr)), (8081, 7)].map Prod.snd ∧
    (∀ p, p ∈ (ListTunnels [(8080, 3), (8081, 7)] twoTunnels).1
      ↔ ∃ port, mget port twoTunnels.tunnels = some p) ∧
    (∀ env localPort remotePort bastion s1,
      CreateTunnel env localPort remotePort bastion twoTunnels = (.nil, s1) →
      ∀ order1, order1.Perm s1.tunnels →
      ∃ p ∈ (ListTunnels order1 s1).1, ∃ t, mget p s1.heap = some t ∧
        t.LocalPort = localPort ∧ t.RemotePort = remotePort) ∧
    (∀ s' p t, Step twoTunnels s' → mget p twoTunnels.heap = some t →
      mget p s'.heap = some t) ∧
    (∀ s' port p, Step twoTunnels s' → mget port twoTunnels.tunnels = some p →
      mget port s'.tunnels = some p ∨ port ∉ mkeys s'.tunnels) :=
  listTunnels_snapshot twoTunnels (wellFormed_reachable _ reachable_twoTunnels)
    [(8080, 3), (8081, 7)] (by decide)

/-- C8 as stated fails: after one successful `CreateTunnel` on port 8080 the
sequence returned by `ListTunnels` is not made of copies, its single element
is the very pointer the mapping stores under 8080. -/
theorem listTunnels_returns_live_pointers :
    (ListTunnels [(8080, 3)] oneTunnel).1 = [3] ∧ mget 8080 oneTunnel.tunnels = some 3 ∧
    ¬ (∀ order, order.Perm oneTunnel.tunnels → ∀ p ∈ (ListTunnels order oneTunnel).1,
        ∀ port, mget port oneTunnel.tunnels ≠ some p) := by
  refine ⟨by decide, by decide, ?_⟩
  intro h
  exact h [(8080, 3)] (by decide) 3 (by decide) 8080 (by decide)

/-! ## Order of the effects of CloseTunnel -/

/-- C9, as the code has it: on a well-formed registry in which `localPort` is
registered, `CloseTunnel` returns nil and performs exactly these effects in
this order: it closes the `done` channel, closes the listener, closes the
client, and only then deletes the key from the mapping. -/
theorem closeTunnel_effect_order (s : State) (hs : WellFormed s) (localPort : Int)
    (hk : localPort ∈ mkeys s.tunnels) :
    ∃ p t, mget localPort s.tunnels = some p ∧ mget p s.heap = some t ∧
      CloseTunnel localPort s
        = (.nil, { s with
            tunnels := mdelete localPort s.tunnels
            trace := s.trace ++ [.closeChan t.done, .closeListener t.listener,
              .closeClient t.client, .delete localPort] }) := by
  obtain ⟨p, hp⟩ := Option.isSome_iff_exists.1 ((mget_isSome_iff localPort s.tunnels).2 hk)
  have hmem := mem_of_mget localPort p s.tunnels hp
  obtain ⟨t, ht, _⟩ := hs.registered localPort p hmem
  exact ⟨p, t, hp, ht, closeTunnel_eq s hs localPort p t hmem ht⟩

theorem closeTunnel_effect_order_witness :
    (8080 : Int) ∈ mkeys oneTunnel.tunnels ∧
    ∃ p t, mget 8080 oneTunnel.tunnels = some p ∧ mget p oneTunnel.heap = some t ∧
      CloseTunnel 8080 oneTunnel
        = (.nil, { oneTunnel with
            tunnels := mdelete 8080 oneTunnel.tunnels
            trace := oneTunnel.trace ++ [.closeChan t.done, .closeListener t.listener,
              .closeClient t.client, .delete 8080] }) :=
  ⟨by decide, closeTunnel_effect_order oneTunnel
    (wellFormed_reachable _ reachable_oneTunnel) 8080 (by decide)⟩

/-- C9 as stated fails: closing the tunnel registered on port 8080, the
deletion of the key is not the first effect followed by the three closes; it
is the last effect, after the three closes. -/
theorem closeTunnel_delete_is_last :
    (8080 : Int) ∈ mkeys oneTunnel.tunnels ∧
    (¬ ∃ d l c, (CloseTunnel 8080 oneTunnel).2.trace
        = oneTunnel.trace ++ [.delete 8080, .closeChan d, .closeListener l, .closeClient c]) ∧
    (CloseTunnel 8080 oneTunnel).2.trace
      = oneTunnel.trace ++ [.closeChan 2, .closeListener 1, .closeClient 0, .delete 8080] := by
  have htr : (CloseTunnel 8080 oneTunnel).2.trace
      = oneTunnel.trace ++ [.closeChan 2, .closeListener 1, .closeClient 0, .delete 8080] := by
    decide
  refine ⟨by decide, ?_, htr⟩
  rintro ⟨d, l, c, h⟩
  rw [htr] at h
  simp at h

/-! ## Instances -/

theorem createTunnel_existing_port_witness :
    (8080 : Int) ∈ mkeys oneTunnel.tunnels ∧
    CreateTunnel envOk 8080 81 (some bastionPw) oneTunnel
      = (.err (.tunnelAlreadyExists 8080), oneTunnel) :=
  ⟨by decide, (createTunnel_existing_port envOk 8080 81 (some bastionPw) oneTunnel
    (by decide)).1⟩

theorem closeTunnel_absent_port_witness :
    (9090 : Int) ∉ mkeys oneTunnel.tunnels ∧
    CloseTunnel 9090 oneTunnel = (.err (.noTunnelExists 9090), oneTunnel) :=
  ⟨by decide, (closeTunnel_absent_port 9090 oneTunnel (by decide)).1⟩

theorem createTunnel_error_releases_witness :
    CreateTunnel envListenFails 8081 81 (some bastionPw) oneTunnel
      = (.err .failedToStartLocalListener,
          (CreateTunnel envListenFails 8081 81 (some bastionPw) oneTunnel).2) ∧
    (CreateTunnel envListenFails 8081 81 (some bastionPw) oneTunnel).2.tunnels
      = oneTunnel.tunnels ∧
    (CreateTunnel envListenFails 8081 81 (some bastionPw) oneTunnel).2.heap = oneTunnel.heap :=
  ⟨by decide, (createTunnel_error_releases envListenFails 8081 81 (some bastionPw) oneTunnel _
    .failedToStartLocalListener (by decide)).1,
   (createTunnel_error_releases envListenFails 8081 81 (some bastionPw) oneTunnel _
    .failedToStartLocalListener (by decide)).2.1⟩

/-! ## The acceptor loop -/

theorem handleConnectionsLoop_returned (t : Tunnel) (dial : Conn → Option Conn)
    (pump : CopyTask → List ReadResult × List Bool) (accepts : List (Option Conn))
    (polls : List State) (a : Acceptor)
    (h : (handleConnectionsLoop t dial pump accepts polls a).returned = true) :
    a.returned = true ∨
      ((∃ pre, (handleConnectionsLoop t dial pump accepts polls a).trace
          = a.trace ++ (pre ++ [.selectDone true]) ∧
          ∀ ev ∈ pre, ev ≠ AcceptorEvent.selectDone true) ∧
        ∃ s ∈ polls, doneClosed t s = true) := by
  induction accepts, polls, a using handleConnectionsLoop.induct t dial pump with
  | case1 accepts a =>
    rw [handleConnectionsLoop] at h
    exact Or.inl h
  | case2 accepts s polls a hs =>
    right
    refine ⟨⟨[], ?_, by simp⟩, s, List.mem_cons_self _ _, hs⟩
    rw [handleConnectionsLoop.eq_def]
    simp [hs]
  | case3 s polls a hs =>
    simp only [handleConnectionsLoop, hs, if_false] at h
    exact Or.inl h
  | case4 s a hs accepts1 =>
    simp only [handleConnectionsLoop, hs, if_false] at h
    exact Or.inl h
  | case5 s a hs accepts1 s2 polls2 hs2 =>
    right
    refine ⟨⟨[.selectDone false, .accept t.listener none], ?_, by simp⟩, s2, by simp, hs2⟩
    simp [handleConnectionsLoop, hs, hs2]
  | case6 s a hs accepts1 s2 polls2 hs2 ih =>
    simp only [handleConnectionsLoop, hs, hs2, if_false] at h ⊢
    rcases ih h with h0 | ⟨⟨pre, hpre, hno⟩, s0, hs0, hc0⟩
    · exact Or.inl h0
    · right
      refine ⟨⟨[.selectDone false, .accept t.listener none, .selectDone false, .print] ++ pre,
        by simp [hpre], ?_⟩, s0, by simp [hs0], hc0⟩
      intro ev hev
      rcases List.mem_append.1 hev with hm | hm
      · simp only [List.mem_cons, List.mem_singleton, List.not_mem_nil, or_false] at hm
        rcases hm with rfl | rfl | rfl | rfl <;> simp
      · exact hno ev hm
  | case7 s polls a hs conn accepts1 ih =>
    simp only [handleConnectionsLoop, hs, if_false] at h ⊢
    rcases ih h with h0 | ⟨⟨pre, hpre, hno⟩, s0, hs0, hc0⟩
    · exact Or.inl h0
    · right
      refine ⟨⟨[.selectDone false, .accept t.listener (some conn), .spawnHandler conn] ++ pre,
        by simp [hpre], ?_⟩, s0, by simp [hs0], hc0⟩
      intro ev hev
      rcases List.mem_append.1 hev with hm | hm
      · simp only [List.mem_cons, List.mem_singleton, List.not_mem_nil, or_false] at hm
        rcases hm with rfl | rfl | rfl <;> simp
      · exact hno ev hm

theorem handleConnectionsLoop_running (t : Tunnel) (dial : Conn → Option Conn)
    (pump : CopyTask → List ReadResult × List Bool) (accepts : List (Option Conn))
    (polls : List State) (a : Acceptor) (hopen : ∀ s ∈ polls, doneClosed t s = false) :
    (handleConnectionsLoop t dial pump accepts polls a).returned = a.returned := by
  by_cases h : (handleConnectionsLoop t dial pump accepts polls a).returned = true
  · rcases handleConnectionsLoop_returned t dial pump accepts polls a h with
      h0 | ⟨_, s, hs, hc⟩
    · rw [h, h0]
    · rw [hopen s hs] at hc
      exact absurd hc (by simp)
  · induction accepts, polls, a using handleConnectionsLoop.induct t dial pump with
    | case1 accepts a => rw [handleConnectionsLoop]
    | case2 accepts s polls a hs =>
      rw [hopen s (List.mem_cons_self _ _)] at hs
      exact absurd hs (by simp)
    | case3 s polls a hs => simp [handleConnectionsLoop, hs]
    | case4 s a hs accepts1 => simp [handleConnectionsLoop, hs]
    | case5 s a hs accepts1 s2 polls2 hs2 =>
      rw [hopen s2 (by simp)] at hs2
      exact absurd hs2 (by simp)
    | case6 s a hs accepts1 s2 polls2 hs2 ih =>
      simp only [handleConnectionsLoop, hs, hs2, if_false] at h ⊢
      exact ih (fun s0 h0 => hopen s0 (by simp [h0])) h
    | case7 s polls a hs conn accepts1 ih =>
      simp only [handleConnectionsLoop, hs, if_false] at h ⊢
      exact ih (fun s0 h0 => hopen s0 (by simp [h0])) h

theorem handleConnectionsLoop_continues (t : Tunnel) (dial : Conn → Option Conn)
    (pump : CopyTask → List ReadResult × List Bool) :
    ∀ (acc1 acc2 : List (Option Conn)) (opens rest : List State) (a : Acceptor),
      (∀ s ∈ opens, doneClosed t s = false) → opens.length = (acc1.map selects).sum →
      handleConnectionsLoop t dial pump (acc1 ++ acc2) (opens ++ rest) a
        = handleConnectionsLoop t dial pump acc2 rest
            { a with
              trace := a.trace ++ acc1.flatMap (iteration t)
              handlers := a.handlers ++ acc1.reduceOption.map (startHandler t dial pump) } := by
  intro acc1
  induction acc1 with
  | nil =>
    intro acc2 opens rest a _ hlen
    have : opens = [] := List.length_eq_zero.1 (by simpa using hlen)
    subst this
    cases a
    simp
  | cons r acc1 ih =>
    intro acc2 opens rest a hopen hlen
    cases r with
    | none =>
      match opens, hopen, hlen with
      | [], _, hlen =>
        simp only [selects, List.map_cons, List.sum_cons, List.length_nil] at hlen
        omega
      | [s], _, hlen =>
        simp only [selects, List.map_cons, List.sum_cons, List.length_singleton] at hlen
        omega
      | s :: s2 :: opens1, hopen, hlen =>
        have h1 : doneClosed t s = false := hopen s (by simp)
        have h2 : doneClosed t s2 = false := hopen s2 (by simp)
        have hlen1 : opens1.length = (acc1.map selects).sum := by
          simp only [selects, List.map_cons, List.sum_cons, List.length_cons] at hlen
          omega
        have := ih acc2 opens1 rest
          { a with
            trace := a.trace ++ [.selectDone false, .accept t.listener none,
              .selectDone false, .print] }
          (fun s0 h0 => hopen s0 (by simp [h0])) hlen1
        rw [handleConnectionsLoop.eq_def]
        simp only [List.cons_append, h1, h2, Bool.false_eq_true, if_false]
        rw [this]
        simp [iteration]
    | some conn =>
      match opens, hopen, hlen with
      | [], _, hlen =>
        simp only [selects, List.map_cons, List.sum_cons, List.length_nil] at hlen
        omega
      | s :: opens1, hopen, hlen =>
        have h1 : doneClosed t s = false := hopen s (by simp)
        have hlen1 : opens1.length = (acc1.map selects).sum := by
          simp only [selects, List.map_cons, List.sum_cons, List.length_cons] at hlen
          omega
        have := ih acc2 opens1 rest
          { a with
            trace := a.trace ++ [.selectDone false, .accept t.listener (some conn),
              .spawnHandler conn]
            handlers := a.handlers ++ [startHandler t dial pump conn] }
          (fun s0 h0 => hopen s0 (by simp [h0])) hlen1
        rw [handleConnectionsLoop.eq_def]
        simp only [List.cons_append, h1, Bool.false_eq_true, if_false]
        rw [this]
        simp [iteration]

theorem handleConnectionsLoop_handlers_irrelevant (t : Tunnel)
    (dial dial' : Conn → Option Conn) (pump pump' : CopyTask → List ReadResult × List Bool)
    (accepts : List (Option Conn)) (polls : List State) (a : Acceptor) :
    ∀ a' : Acceptor, a.returned = a'.returned → a.trace = a'.trace →
      (handleConnectionsLoop t dial pump accepts polls a).returned
        = (handleConnectionsLoop t dial' pump' accepts polls a').returned ∧
      (handleConnectionsLoop t dial pump accepts polls a).trace
        = (handleConnectionsLoop t dial' pump' accepts polls a').trace := by
  induction accepts, polls, a using handleConnectionsLoop.induct t dial pump with
  | case1 accepts a =>
    intro a' hr ht
    simp [handleConnectionsLoop, hr, ht]
  | case2 accepts s polls a hs =>
    intro a' hr ht
    rw [handleConnectionsLoop.eq_def, handleConnectionsLoop.eq_def t dial' pump']
    simp [hs, ht]
  | case3 s polls a hs =>
    intro a' hr ht
    simp [handleConnectionsLoop, hs, hr, ht]
  | case4 s a hs accepts1 =>
    intro a' hr ht
    simp [handleConnectionsLoop, hs, hr, ht]
  | case5 s a hs accepts1 s2 polls2 hs2 =>
    intro a' hr ht
    simp [handleConnectionsLoop, hs, hs2, ht]
  | case6 s a hs accepts1 s2 polls2 hs2 ih =>
    intro a' hr ht
    simp only [handleConnectionsLoop, hs, hs2, if_false]
    exact ih _ hr (by simp [ht])
  | case7 s polls a hs conn accepts1 ih =>
    intro a' hr ht
    simp only [handleConnectionsLoop, hs, if_false]
    exact ih _ hr (by simp [ht])

/-- C11: for every sequence of `Accept` outcomes and every sequence of
registry states met by the `select` statements, `handleConnections` returns
only right after a `select` that found `done` closed, every earlier `select`
having found it open; if `done` is never found closed it does not return.
While `done` is found open the loop handles each `Accept` outcome and goes
on with the remaining ones: an error is followed by the second `select`, the
report and the next iteration, a connection by the start of exactly one
handler and the next iteration. Whether and when the loop returns, and what
it does itself, do not depend on the outcome of the remote dial or of the
copying of any accepted connection. -/
theorem handleConnections_exits_only_on_done (t : Tunnel) (dial : Conn → Option Conn)
    (pump : CopyTask → List ReadResult × List Bool) (accepts : List (Option Conn))
    (polls : List State) :
    ((handleConnections t dial pump accepts polls).returned = true →
      (∃ pre, (handleConnections t dial pump accepts polls).trace = pre ++ [.selectDone true] ∧
        ∀ ev ∈ pre, ev ≠ AcceptorEvent.selectDone true) ∧
      ∃ s ∈ polls, doneClosed t s = true) ∧
    ((∀ s ∈ polls, doneClosed t s = false) →
      (handleConnections t dial pump accepts polls).returned = false) ∧
    (∀ acc1 acc2 opens rest, accepts = acc1 ++ acc2 → polls = opens ++ rest →
      (∀ s ∈ opens, doneClosed t s = false) → opens.length = (acc1.map selects).sum →
      handleConnections t dial pump accepts polls
        = handleConnectionsLoop t dial pump acc2 rest
            { returned := false
              trace := acc1.flatMap (iteration t)
              handlers := acc1.reduceOption.map (startHandler t dial pump) }) ∧
    ((∀ s ∈ polls, doneClosed t s = false) → polls.length = (accepts.map selects).sum + 1 →
      (handleConnections t dial pump accepts polls).trace
        = accepts.flatMap (iteration t) ++ [.selectDone false] ∧
      (handleConnections t dial pump accepts polls).handlers.map Handler.conn
        = accepts.reduceOption) ∧
    (∀ dial' pump',
      (handleConnections t dial' pump' accepts polls).returned
        = (handleConnections t dial pump accepts polls).returned ∧
      (handleConnections t dial' pump' accepts polls).trace
        = (handleConnections t dial pump accepts polls).trace) := by
  have hcont : ∀ acc1 acc2 opens rest, accepts = acc1 ++ acc2 → polls = opens ++ rest →
      (∀ s ∈ opens, doneClosed t s = false) → opens.length = (acc1.map selects).sum →
      handleConnections t dial pump accepts polls
        = handleConnectionsLoop t dial pump acc2 rest
            { returned := false
              trace := acc1.flatMap (iteration t)
              handlers := acc1.reduceOption.map (startHandler t dial pump) } := by
    intro acc1 acc2 opens rest ha hp hopen hlen
    subst ha hp
    have := handleConnectionsLoop_continues t dial pump acc1 acc2 opens rest
      { returned := false, trace := [], handlers := [] } hopen hlen
    simpa [handleConnections] using this
  refine ⟨?_, ?_, hcont, ?_, ?_⟩
  · intro h
    rcases handleConnectionsLoop_returned t dial pump accepts polls
      { returned := false, trace := [], handlers := [] } h with h0 | ⟨⟨pre, hpre, hno⟩, hs⟩
    · simp at h0
    · exact ⟨⟨pre, by simpa [handleConnections] using hpre, hno⟩, hs⟩
  · intro hopen
    exact handleConnectionsLoop_running t dial pump accepts polls
      { returned := false, trace := [], handlers := [] } hopen
  · intro hopen hlen
    have hne : polls ≠ [] := by
      intro h
      rw [h] at hlen
      simp at hlen
    have hsplit : polls = polls.dropLast ++ [polls.getLast hne] :=
      (List.dropLast_append_getLast hne).symm
    have hlen' : polls.dropLast.length = (accepts.map selects).sum := by
      rw [List.length_dropLast, hlen]
      rfl
    have hlast : doneClosed t (polls.getLast hne) = false :=
      hopen _ (List.getLast_mem hne)
    have := hcont accepts [] polls.dropLast [polls.getLast hne] (by simp) hsplit
      (fun s hs => hopen s (List.mem_of_mem_dropLast hs)) hlen'
    rw [this]
    simp [handleConnectionsLoop, hlast, Function.comp_def, startHandler]
  · intro dial' pump'
    exact handleConnectionsLoop_handlers_irrelevant t dial' dial pump' pump accepts polls
      { returned := false, trace := [], handlers := [] }
      { returned := false, trace := [], handlers := [] } rfl rfl

theorem handleConnections_exits_only_on_done_witness :
    (handleConnections tunnel8080 (fun _ => none) (fun _ => ([], [])) [some 5, none, some 6]
      [oneTunnel, oneTunnel, oneTunnel, oneTunnel, afterClose]).returned = true ∧
    (∃ pre, (handleConnections tunnel8080 (fun _ => none) (fun _ => ([], []))
        [some 5, none, some 6]
        [oneTunnel, oneTunnel, oneTunnel, oneTunnel, afterClose]).trace
          = pre ++ [.selectDone true] ∧
      ∀ ev ∈ pre, ev ≠ AcceptorEvent.selectDone true) ∧
    ∃ s ∈ [oneTunnel, oneTunnel, oneTunnel, oneTunnel, afterClose],
      doneClosed tunnel8080 s = true :=
  ⟨by decide,
    (handleConnections_exits_only_on_done tunnel8080 (fun _ => none) (fun _ => ([], []))
      [some 5, none, some 6] [oneTunnel, oneTunnel, oneTunnel, oneTunnel, afterClose]).1
      (by decide)⟩

end T9s
